import Mathlib

/-!
Verification development for the aimem mitmproxy addon
(`src/proxy/interceptor.py`).

The Python source is shallowly embedded below: pure fragments become Lean
functions, JSON values become an inductive type, Python exceptions become
`Except PyErr`, and the SQLite-backed persistence layer becomes explicit
state passing over a `DB` record, with the cursor-level query results
abstracted as inputs where the source wraps them in `try/except`.

String conventions: Python `a in b` on strings is substring containment
(`strContainsB`), `str.lower()` is the per-character ASCII lowering
(`pyLower`), `str.strip()` is the whitespace trim `pyStrip`, slicing is by
characters.
-/

namespace Aimem

/-- Python exception kinds that the embedded code can raise. -/
inductive PyErr where
  | typeError
  | attributeError
  | keyError
  deriving DecidableEq, Repr

/-- Executable substring search on lists: `listContains hay needle` is true
iff `needle` occurs contiguously inside `hay` (the model of Python's
`needle in hay` for strings, and of `str.find` success). -/
def listContains [BEq α] : List α → List α → Bool
  | [], needle => needle.isEmpty
  | c :: t, needle => needle.isPrefixOf (c :: t) || listContains t needle

/-- Model of Python `needle in hay` for strings (substring containment). -/
def strContainsB (hay needle : String) : Bool :=
  listContains hay.data needle.data

/-- Model of Python `s.startswith(pre)`. -/
def strStartsB (s pre : String) : Bool :=
  pre.data.isPrefixOf s.data

/-- Model of Python `str.lower()` (per-character ASCII lowering). -/
def pyLower (s : String) : String :=
  ⟨s.data.map Char.toLower⟩

/-- Python whitespace for `str.strip()`. -/
def pyIsSpace (c : Char) : Bool :=
  c = ' ' || c = '\t' || c = '\n' || c = '\r' || c = '\x0b' || c = '\x0c'

/-- Model of Python `str.strip()`. -/
def pyStrip (s : String) : String :=
  ⟨((s.data.dropWhile pyIsSpace).reverse.dropWhile pyIsSpace).reverse⟩

/-- Model of Python `s[n:]` (slicing by characters). -/
def strDrop (s : String) (n : Nat) : String :=
  ⟨s.data.drop n⟩

/-- Model of Python `s[:n]`. -/
def strTake (s : String) (n : Nat) : String :=
  ⟨s.data.take n⟩

def splitOnChar (sep : Char) : List Char → List (List Char)
  | [] => [[]]
  | c :: t =>
    let r := splitOnChar sep t
    if c = sep then [] :: r
    else
      match r with
      | [] => [[c]]
      | h :: rs => (c :: h) :: rs

/-- Model of Python `s.split(sep)` for a one-character separator. -/
def pySplit (s : String) (sep : Char) : List String :=
  (splitOnChar sep s.data).map fun l => ⟨l⟩

/-- JSON values as decoded by `json.loads`.  Numbers are kept as a decimal
mantissa/exponent pair (`mantissa * 10 ^ exp10`); none of the verified
claims depends on numeric arithmetic, only on truthiness and on a number
not being a string. -/
inductive Json where
  | null : Json
  | bool : Bool → Json
  | num : Int → Int → Json
  | str : String → Json
  | arr : List Json → Json
  | obj : List (String × Json) → Json

/-- First value bound to key `k` in an association list (Python dicts have
unique keys, so first = the value). -/
def getEntry : List (String × Json) → String → Option Json
  | [], _ => none
  | (k, v) :: t, key => if k = key then some v else getEntry t key

/-- Python `k in d` for a dict: key membership. -/
def hasKeyJ (fs : List (String × Json)) (k : String) : Bool :=
  fs.any fun p => p.1 = k

/-- Bind key `k` to `v`: replace the existing entry in place (Python dict
assignment keeps the original key position) or append a fresh one. -/
def setEntry : List (String × Json) → String → Json → List (String × Json)
  | [], key, v => [(key, v)]
  | (k, w) :: t, key, v =>
    if k = key then (k, v) :: t else (k, w) :: setEntry t key v

/-- Model of Python `d.get(k)` (None when absent); raises AttributeError on
non-dict receivers, exactly as in CPython. -/
def pyGet : Json → String → Except PyErr (Option Json)
  | .obj fs, k => .ok (getEntry fs k)
  | _, _ => .error .attributeError

/-- Model of Python `d.get(k, dflt)`. -/
def pyGetD (d : Json) (k : String) (dflt : Json) : Except PyErr Json :=
  match pyGet d k with
  | .error e => .error e
  | .ok v => .ok (v.getD dflt)

/-- Model of Python `k in d` for JSON values: key membership for dicts,
element equality for lists, substring for strings, TypeError otherwise. -/
def pyIn (d : Json) (k : String) : Except PyErr Bool :=
  match d with
  | .obj fs => .ok (fs.any fun p => p.1 = k)
  | .arr xs => .ok (xs.any fun x => match x with | .str s => s = k | _ => false)
  | .str s => .ok (strContainsB s k)
  | _ => .error .typeError

/-- Model of Python iteration `for x in v`: lists yield elements, strings
yield their one-character strings, dicts yield their keys, everything else
raises TypeError. -/
def pyIter : Json → Except PyErr (List Json)
  | .arr xs => .ok xs
  | .str s => .ok (s.data.map fun c => .str ⟨[c]⟩)
  | .obj fs => .ok (fs.map fun p => .str p.1)
  | _ => .error .typeError

/-- Python truthiness of a JSON value. -/
def truthy : Json → Bool
  | .null => false
  | .bool b => b
  | .num m _ => m ≠ 0
  | .str s => s ≠ ""
  | .arr xs => !xs.isEmpty
  | .obj fs => !fs.isEmpty

mutual

/-- All string leaves of a JSON value, in document order (used to count
occurrences of the injected context in a request body). -/
def Json.leafStrings : Json → List String
  | .null => []
  | .bool _ => []
  | .num _ _ => []
  | .str s => [s]
  | .arr xs => leafStringsList xs
  | .obj fs => leafStringsFields fs

def leafStringsList : List Json → List String
  | [] => []
  | x :: t => x.leafStrings ++ leafStringsList t

def leafStringsFields : List (String × Json) → List String
  | [] => []
  | (_, v) :: t => v.leafStrings ++ leafStringsFields t

end

/-- Number of string leaves of a JSON value that contain `ctx` as a
substring (the leaf-level occurrence count of an injected context). -/
def countJ (ctx : String) (j : Json) : Nat :=
  ((Json.leafStrings j).filter fun s => strContainsB s ctx).length

def countFields (ctx : String) (fs : List (String × Json)) : Nat :=
  ((leafStringsFields fs).filter fun s => strContainsB s ctx).length

def countList (ctx : String) (xs : List Json) : Nat :=
  ((leafStringsList xs).filter fun s => strContainsB s ctx).length

/-! ### A model of `json.loads`

Recursive-descent parser over the character list, with a fuel bound on
nesting depth.  It accepts the JSON grammar (tolerating a few irrelevant
lenient corners such as leading zeros) and mirrors the two behaviours the
claims rely on: success returns the decoded value, failure is `none`
(Python's `json.JSONDecodeError`), and duplicate object keys keep the last
value at the first key's position. -/

def isWsChar (c : Char) : Bool :=
  c = ' ' || c = '\t' || c = '\n' || c = '\r'

def skipWs : List Char → List Char
  | [] => []
  | c :: t => if isWsChar c then skipWs t else c :: t

def isDigitChar (c : Char) : Bool :=
  '0' ≤ c && c ≤ '9'

def digitsToNat (ds : List Char) : Nat :=
  ds.foldl (fun a c => a * 10 + (c.toNat - 48)) 0

/-- Split a leading nonempty digit run; `none` when the input does not
start with a digit. -/
def takeDigits (s : List Char) : Option (List Char × List Char) :=
  let ds := s.takeWhile isDigitChar
  if ds.isEmpty then none else some (ds, s.dropWhile isDigitChar)

def hexVal (c : Char) : Option Nat :=
  if isDigitChar c then some (c.toNat - 48)
  else if 'a' ≤ c && c ≤ 'f' then some (c.toNat - 87)
  else if 'A' ≤ c && c ≤ 'F' then some (c.toNat - 55)
  else none

/-- Parse the body of a JSON string literal (after the opening quote). -/
def parseStrBody : List Char → Option (List Char × List Char)
  | [] => none
  | '"' :: r => some ([], r)
  | '\\' :: 'u' :: a :: b :: c :: d :: r => do
    let ha ← hexVal a
    let hb ← hexVal b
    let hc ← hexVal c
    let hd ← hexVal d
    let (cs, rest) ← parseStrBody r
    return (Char.ofNat (((ha * 16 + hb) * 16 + hc) * 16 + hd) :: cs, rest)
  | '\\' :: e :: r => do
    let c ← match e with
      | '"' => some '"'
      | '\\' => some '\\'
      | '/' => some '/'
      | 'n' => some '\n'
      | 't' => some '\t'
      | 'r' => some '\r'
      | 'b' => some (Char.ofNat 8)
      | 'f' => some (Char.ofNat 12)
      | _ => none
    let (cs, rest) ← parseStrBody r
    return (c :: cs, rest)
  | c :: r => do
    let (cs, rest) ← parseStrBody r
    return (c :: cs, rest)

/-- Parse a JSON number starting at the head of the input. -/
def parseNum (s : List Char) : Option (Json × List Char) := do
  let (neg, s₁) := match s with
    | '-' :: t => (true, t)
    | _ => (false, s)
  let (intDs, s₂) ← takeDigits s₁
  let (fracDs, s₃) := match s₂ with
    | '.' :: t =>
      match takeDigits t with
      | some (ds, r) => (ds, r)
      | none => ([], '.' :: t)
    | _ => ([], s₂)
  let (expVal, s₄) := match s₃ with
    | 'e' :: t | 'E' :: t =>
      match t with
      | '-' :: u =>
        (match takeDigits u with
         | some (ds, r) => (-(digitsToNat ds : Int), r)
         | none => (0, s₃))
      | '+' :: u =>
        (match takeDigits u with
         | some (ds, r) => ((digitsToNat ds : Int), r)
         | none => (0, s₃))
      | _ =>
        (match takeDigits t with
         | some (ds, r) => ((digitsToNat ds : Int), r)
         | none => (0, s₃))
    | _ => ((0 : Int), s₃)
  let mag : Nat := digitsToNat (intDs ++ fracDs)
  let mantissa : Int := if neg then -(mag : Int) else (mag : Int)
  return (.num mantissa (expVal - fracDs.length), s₄)

/-- Combine an object field with the already-parsed fields to its right.
As in CPython, the value of the last duplicate occurrence of a key wins
(the resulting association list has unique keys; the relative position of
a duplicated key is immaterial to every lookup performed by the addon). -/
def insertFieldLast (k : String) (v : Json) (later : List (String × Json)) :
    List (String × Json) :=
  if later.any fun p => p.1 = k then later else (k, v) :: later

mutual

def parseJV : Nat → List Char → Option (Json × List Char)
  | 0, _ => none
  | Nat.succ fuel, s =>
    match skipWs s with
    | 'n' :: 'u' :: 'l' :: 'l' :: r => some (.null, r)
    | 't' :: 'r' :: 'u' :: 'e' :: r => some (.bool true, r)
    | 'f' :: 'a' :: 'l' :: 's' :: 'e' :: r => some (.bool false, r)
    | '"' :: r => do
      let (cs, rest) ← parseStrBody r
      return (.str ⟨cs⟩, rest)
    | '\x5b' :: r =>
      (match skipWs r with
       | '\x5d' :: r₂ => some (.arr [], r₂)
       | r₂ => do
         let (xs, rest) ← parseArrItems fuel r₂
         return (.arr xs, rest))
    | '\x7b' :: r =>
      (match skipWs r with
       | '\x7d' :: r₂ => some (.obj [], r₂)
       | r₂ => do
         let (fs, rest) ← parseObjItems fuel r₂
         return (.obj fs, rest))
    | r => parseNum r

def parseArrItems : Nat → List Char → Option (List Json × List Char)
  | 0, _ => none
  | Nat.succ fuel, s => do
    let (v, r) ← parseJV fuel s
    match skipWs r with
    | ',' :: r₂ => do
      let (xs, rest) ← parseArrItems fuel r₂
      return (v :: xs, rest)
    | '\x5d' :: r₂ => some ([v], r₂)
    | _ => none

def parseObjItems : Nat → List Char → Option (List (String × Json) × List Char)
  | 0, _ => none
  | Nat.succ fuel, s => do
    match skipWs s with
    | '"' :: r => do
      let (kcs, r₂) ← parseStrBody r
      match skipWs r₂ with
      | ':' :: r₃ => do
        let (v, r₄) ← parseJV fuel r₃
        match skipWs r₄ with
        | ',' :: r₅ => do
          let (fs, rest) ← parseObjItems fuel r₅
          return (insertFieldLast ⟨kcs⟩ v fs, rest)
        | '\x7d' :: r₅ => some ([(⟨kcs⟩, v)], r₅)
        | _ => none
      | _ => none
    | _ => none

end

/-- Model of Python `json.loads`: the whole input must be consumed
(up to trailing whitespace). -/
def json_loads (s : String) : Option Json := do
  let (v, rest) ← parseJV (s.data.length + 1) s.data
  if (skipWs rest).isEmpty then some v else none

/-! ### Provider registry (interceptor.py lines 13-43, 118-154) -/

/-- `TARGET_HOSTS` from the source, in order. -/
def TARGET_HOSTS : List String :=
  ["api.anthropic.com", "api.openai.com", "generativelanguage.googleapis.com",
   "api.mistral.ai", "api.cohere.ai", "api.cohere.com", "api.groq.com",
   "api.together.xyz", "api.perplexity.ai", "api.fireworks.ai",
   "api.replicate.com", "api.deepseek.com", "localhost:11434",
   "127.0.0.1:11434", "localhost:1234", "127.0.0.1:1234"]

/-- `AimemInterceptor.is_target_host`:
`any(target in host for target in TARGET_HOSTS)` — note the comparison is
case-sensitive and against the raw host. -/
def is_target_host (host : String) : Bool :=
  TARGET_HOSTS.any fun target => strContainsB host target

/-- An if-elif-chain: the result attached to the first true condition,
with a default of "unknown" (the shape of lines 128-154). -/
def condChain : List (Bool × String) → String
  | [] => "unknown"
  | (c, r) :: t => if c then r else condChain t

/-- The condition/result pairs of `get_tool_from_host`'s chain, in source
order, over the already-lowered host (`host_lower`). -/
def toolTable (hl : String) : List (Bool × String) :=
  [(strContainsB hl "anthropic", "claude"),
   (strContainsB hl "openai", "openai"),
   (strContainsB hl "generativelanguage.googleapis", "gemini"),
   (strContainsB hl "mistral", "mistral"),
   (strContainsB hl "cohere", "cohere"),
   (strContainsB hl "groq", "groq"),
   (strContainsB hl "together", "together"),
   (strContainsB hl "perplexity", "perplexity"),
   (strContainsB hl "fireworks", "fireworks"),
   (strContainsB hl "replicate", "replicate"),
   (strContainsB hl "deepseek", "deepseek"),
   (strContainsB hl "11434" || (strContainsB hl "localhost" && !strContainsB hl "ollama"), "ollama"),
   (strContainsB hl "1234", "lmstudio")]

def get_tool_from_lower (hl : String) : String :=
  condChain (toolTable hl)

/-- `AimemInterceptor.get_tool_from_host` (lines 125-154):
`host_lower = host.lower()`, then the if-chain. -/
def get_tool_from_host (host : String) : String :=
  get_tool_from_lower (pyLower host)

/-! ### Entity extraction (interceptor.py lines 59-68, 220-228)

The regex `\b([A-Z][a-zA-Z0-9]*(?:Service|...|Handler)?)\b` over
`re.finditer` yields exactly the maximal word-character runs of the text
that contain no underscore and begin with an ASCII uppercase letter:
the leading `\b` forces a match to begin at a run start, `[A-Z]` then
requires the run to begin uppercase, the greedy `[a-zA-Z0-9]*` (which
subsumes every optional suffix) extends to the end of the alphanumeric
run, and the trailing `\b` fails — with no rescuing backtrack, as every
earlier stop is followed by a word character — whenever that end abuts an
underscore.  `wordRuns` computes those runs. -/

/-- Python `\w` for the ASCII inputs at hand. -/
def isWordChar (c : Char) : Bool :=
  c.isAlphanum || c = '_'

def wordRunsAux : Nat → List Char → List (List Char)
  | 0, _ => []
  | Nat.succ _, [] => []
  | Nat.succ fuel, c :: rest =>
    if isWordChar c then
      (c :: rest.takeWhile isWordChar) :: wordRunsAux fuel (rest.dropWhile isWordChar)
    else
      wordRunsAux fuel rest

/-- Maximal word-character runs of a character list (fuel-bounded
structural recursion; the fuel `l.length` always suffices since every
step consumes at least one character). -/
def wordRuns (l : List Char) : List (List Char) :=
  wordRunsAux l.length l

/-- The capture groups produced by the entity regex on `text`. -/
def entityTokens (text : String) : List String :=
  ((wordRuns text.data).filter fun r =>
      (match r.head? with | some c => c.isUpper | none => false)
        && !r.contains '_').map fun r => ⟨r⟩

/-- `COMMON_WORDS` from the source (a Python `set`; membership below is
case-sensitive, exactly as `name not in COMMON_WORDS` is). -/
def COMMON_WORDS : List String :=
  ["the", "this", "that", "these", "those", "then", "than",
   "will", "would", "should", "could", "can", "may", "might",
   "have", "has", "had", "get", "set", "let", "var", "const",
   "function", "class", "def", "return", "true", "false", "null",
   "undefined", "new", "for", "while", "if", "else", "try", "catch",
   "import", "export", "from", "require", "module", "use", "using",
   "String", "Number", "Boolean", "Array", "Object", "Date", "Error"]

/-- First-occurrence deduplication with an accumulator of already-seen
elements (the model of collecting into a Python `set`). -/
def dedupFirst [DecidableEq α] (seen : List α) : List α → List α
  | [] => []
  | x :: t => if x ∈ seen then dedupFirst seen t else x :: dedupFirst (x :: seen) t

/-- `AimemInterceptor._extract_entities`: regex tokens, filtered by the
stop list and the length bound, collected into a set (modelled as a
first-occurrence deduplicated list). -/
def extract_entities (text : String) : List String :=
  dedupFirst [] ((entityTokens text).filter fun name =>
    !(COMMON_WORDS.contains name) && name.length > 2)

/-! ### Decision extraction candidates and their final deduplication
(interceptor.py lines 156-193) -/

/-- An `ExtractionCandidate` as built in `extract_decisions`:
`{'type': ..., 'content': sentence.strip(), 'entities': ...}`. -/
structure Extraction where
  type : String
  content : String
  entities : List String
  deriving DecidableEq, Repr

/-- The dedup key of lines 188: `ext['content'][:80].lower()`. -/
def extKey (e : Extraction) : String :=
  pyLower (strTake e.content 80)

/-- Lines 184-192: the `seen`-set/`unique`-list loop.  `seen` holds the
keys of the candidates already kept. -/
def dedupExtractions (seen : List String) : List Extraction → List Extraction
  | [] => []
  | e :: rest =>
    if extKey e ∈ seen then dedupExtractions seen rest
    else e :: dedupExtractions (extKey e :: seen) rest

/-! ### Streaming (SSE) content extraction (interceptor.py lines 361-413)

`_parse_sse_content` decodes the raw bytes with `errors='ignore'` (which
never fails) and then runs a per-line loop inside a blanket
`try/except Exception`; the loop is embedded as a step function that can
both extend the accumulated content and raise, and the catch-all makes
the top-level function return whatever content had accumulated when an
exception escaped a line. -/

/-- Python `v == "s"` for a `d.get(k)` result: only a string compares
equal to a string literal; `None` and other types compare unequal without
raising. -/
def isStrVal (v : Option Json) (s : String) : Bool :=
  match v with
  | some (.str t) => t = s
  | _ => false

/-- Left fold of a fallible per-element action that keeps the partial
accumulator on error (Python: exception escapes mid-loop). -/
def pyFold (f : String → Json → String × Option PyErr) :
    String → List Json → String × Option PyErr
  | acc, [] => (acc, none)
  | acc, x :: t =>
    match f acc x with
    | (acc', none) => pyFold f acc' t
    | (acc', some e) => (acc', some e)

/-- One OpenAI-style `choice` (lines 393-397):
`delta = choice.get('delta', {}); if delta.get('content'): content += ...`. -/
def sseChoiceStep (acc : String) (choice : Json) : String × Option PyErr :=
  match pyGetD choice "delta" (.obj []) with
  | .error e => (acc, some e)
  | .ok delta =>
    match pyGet delta "content" with
    | .error e => (acc, some e)
    | .ok v =>
      let v := v.getD .null
      if truthy v then
        match v with
        | .str s => (acc ++ s, none)
        | _ => (acc, some .typeError)
      else (acc, none)

/-- One Gemini-style `part` (lines 403-405):
`if part.get('text'): content += part.get('text', '')`. -/
def ssePartStep (acc : String) (part : Json) : String × Option PyErr :=
  match pyGet part "text" with
  | .error e => (acc, some e)
  | .ok v =>
    let v := v.getD .null
    if truthy v then
      match v with
      | .str s => (acc ++ s, none)
      | _ => (acc, some .typeError)
    else (acc, none)

/-- One Gemini-style `candidate` (lines 400-405). -/
def sseCandidateStep (acc : String) (candidate : Json) : String × Option PyErr :=
  match pyGetD candidate "content" (.obj []) with
  | .error e => (acc, some e)
  | .ok cc =>
    match pyGetD cc "parts" (.arr []) with
    | .error e => (acc, some e)
    | .ok partsV =>
      match pyIter partsV with
      | .error e => (acc, some e)
      | .ok parts => pyFold ssePartStep acc parts

/-- The Anthropic `content_block_delta` branch (lines 382-385). -/
def sseAnthropicStep (acc : String) (fs : List (String × Json)) :
    String × Option PyErr :=
  if isStrVal (getEntry fs "type") "content_block_delta" then
    match (getEntry fs "delta").getD (.obj []) with
    | .obj dfs =>
      if isStrVal (getEntry dfs "type") "text_delta" then
        match (getEntry dfs "text").getD (.str "") with
        | .str s => (acc ++ s, none)
        | _ => (acc, some .typeError)
      else (acc, none)
    | _ => (acc, some .attributeError)
  else (acc, none)

/-- The OpenAI `choices` branch (lines 393-397). -/
def sseChoicesStep (acc : String) (fs : List (String × Json)) :
    String × Option PyErr :=
  if fs.any fun p => p.1 = "choices" then
    match pyIter ((getEntry fs "choices").getD (.arr [])) with
    | .error e => (acc, some e)
    | .ok choices => pyFold sseChoiceStep acc choices
  else (acc, none)

/-- The Gemini `candidates` branch (lines 400-405). -/
def sseCandidatesStep (acc : String) (fs : List (String × Json)) :
    String × Option PyErr :=
  if fs.any fun p => p.1 = "candidates" then
    match pyIter ((getEntry fs "candidates").getD (.arr [])) with
    | .error e => (acc, some e)
    | .ok candidates => pyFold sseCandidateStep acc candidates
  else (acc, none)

/-- Process one successfully JSON-decoded `data:` payload (lines 377-405):
the Anthropic `content_block_delta` branch, then the OpenAI `choices`
branch, then the Gemini `candidates` branch, applied in sequence to the
same payload (the `message_delta` branch is `pass`). -/
def ssePayloadStep (acc : String) (d : Json) : String × Option PyErr :=
  match d with
  | .obj fs =>
    match sseAnthropicStep acc fs with
    | (acc₁, none) =>
      (match sseChoicesStep acc₁ fs with
       | (acc₂, none) => sseCandidatesStep acc₂ fs
       | r => r)
    | r => r
  | _ => (acc, some .attributeError)

/-- Process one line of the SSE body (lines 367-408): strip, require the
`data:` marker, drop `[DONE]`, decode the payload (a decode failure is the
`json.JSONDecodeError` branch: skip the line), then extract. -/
def sseLineStep (acc : String) (rawLine : String) : String × Option PyErr :=
  let line := pyStrip rawLine
  if !strStartsB line "data:" then (acc, none)
  else
    let dataStr := pyStrip (strDrop line 5)
    if dataStr = "[DONE]" then (acc, none)
    else
      match json_loads dataStr with
      | none => (acc, none)
      | some d => ssePayloadStep acc d

/-- The per-line loop: stops at the first escaping exception, keeping the
content accumulated so far (the blanket `except` at lines 410-411). -/
def sseLoop (acc : String) : List String → String
  | [] => acc
  | line :: rest =>
    match sseLineStep acc line with
    | (acc', none) => sseLoop acc' rest
    | (acc', some _) => acc'

/-- `AimemInterceptor._parse_sse_content`, applied to the decoded text of
the raw bytes (`decode('utf-8', errors='ignore')` is total). -/
def parse_sse_content (text : String) : String :=
  sseLoop "" (pySplit text '\n')

/-! ### JSON response content extraction (interceptor.py lines 420-467)

`_get_assistant_content` has no `try/except`, so an exception escapes to
the caller (`response`, whose blanket handler catches it): the embedding
is `Except`-valued.  The six provider branches of the source are embedded
as six sequentially composed branch functions threading the accumulated
content. -/

mutual

/-- Python `repr` of a JSON-decoded value (the containers' element form
of `str`). -/
def pyRepr : Json → String
  | .null => "None"
  | .bool true => "True"
  | .bool false => "False"
  | .num m e => if e = 0 then toString m else toString m ++ "e" ++ toString e
  | .str s => "\x27" ++ s ++ "\x27"
  | .arr xs => "[" ++ pyReprList xs ++ "]"
  | .obj fs => "\x7b" ++ pyReprFields fs ++ "\x7d"

def pyReprList : List Json → String
  | [] => ""
  | [x] => pyRepr x
  | x :: y :: t => pyRepr x ++ ", " ++ pyReprList (y :: t)

def pyReprFields : List (String × Json) → String
  | [] => ""
  | [(k, v)] => "\x27" ++ k ++ "\x27: " ++ pyRepr v
  | (k, v) :: p :: t => "\x27" ++ k ++ "\x27: " ++ pyRepr v ++ ", " ++ pyReprFields (p :: t)

end

/-- Python `str(o)`. -/
def pyStr : Json → String
  | .str s => s
  | j => pyRepr j

/-- Fold a fallible append step over a list, propagating the exception
(the content accumulated so far is lost, as when a Python `for` raises
inside a function without a handler). -/
def exceptFold (f : String → Json → Except PyErr String) :
    String → List Json → Except PyErr String
  | acc, [] => .ok acc
  | acc, x :: t => do
    let acc' ← f acc x
    exceptFold f acc' t

/-- Append a `.get` result that the source trusts to be text:
`content += v + "\n"` raises TypeError unless `v` is a string. -/
def appendText (acc : String) (v : Json) : Except PyErr String :=
  match v with
  | .str s => .ok (acc ++ s ++ "\n")
  | _ => .error .typeError

/-- One Anthropic content block (lines 425-430). -/
def gacBlockStep (acc : String) (block : Json) : Except PyErr String :=
  match block with
  | .obj bfs =>
    if isStrVal (getEntry bfs "type") "text" then
      appendText acc ((getEntry bfs "text").getD (.str ""))
    else .ok acc
  | .str s => .ok (acc ++ s ++ "\n")
  | _ => .ok acc

/-- One OpenAI-style choice (lines 433-441). -/
def gacChoiceStep (acc : String) (choice : Json) : Except PyErr String :=
  match pyGetD choice "message" (.obj []) with
  | .error e => .error e
  | .ok msg =>
    match pyGet msg "content" with
    | .error e => .error e
    | .ok v =>
      match (if truthy (v.getD .null) then appendText acc (v.getD .null) else .ok acc) with
      | .error e => .error e
      | .ok acc₁ =>
        match pyGetD choice "delta" (.obj []) with
        | .error e => .error e
        | .ok delta =>
          match pyGet delta "content" with
          | .error e => .error e
          | .ok w =>
            if truthy (w.getD .null) then appendText acc₁ (w.getD .null) else .ok acc₁

/-- One Gemini part / one Cohere generation (lines 446-449, 454-457):
`if x.get("text"): content += x.get("text", "") + "\n"`. -/
def gacTextFieldStep (acc : String) (x : Json) : Except PyErr String :=
  match pyGet x "text" with
  | .error e => .error e
  | .ok v =>
    if truthy (v.getD .null) then appendText acc (v.getD .null) else .ok acc

/-- One Gemini candidate (lines 444-449). -/
def gacCandidateStep (acc : String) (candidate : Json) : Except PyErr String :=
  match pyGetD candidate "content" (.obj []) with
  | .error e => .error e
  | .ok cc =>
    match pyGetD cc "parts" (.arr []) with
    | .error e => .error e
    | .ok partsV =>
      match pyIter partsV with
      | .error e => .error e
      | .ok parts => exceptFold gacTextFieldStep acc parts

/-- Lines 424-430, the Anthropic branch. -/
def gacContent (rd : Json) (acc : String) : Except PyErr String :=
  match pyIn rd "content" with
  | .error e => .error e
  | .ok b =>
    if b then
      match pyGet rd "content" with
      | .error e => .error e
      | .ok v =>
        match v.getD .null with
        | .arr blocks => exceptFold gacBlockStep acc blocks
        | _ => .ok acc
    else .ok acc

/-- Lines 432-441, the OpenAI-compatible branch. -/
def gacChoices (rd : Json) (acc : String) : Except PyErr String :=
  match pyIn rd "choices" with
  | .error e => .error e
  | .ok b =>
    if b then
      match pyGetD rd "choices" (.arr []) with
      | .error e => .error e
      | .ok v =>
        match pyIter v with
        | .error e => .error e
        | .ok xs => exceptFold gacChoiceStep acc xs
    else .ok acc

/-- Lines 443-449, the Gemini branch. -/
def gacCandidates (rd : Json) (acc : String) : Except PyErr String :=
  match pyIn rd "candidates" with
  | .error e => .error e
  | .ok b =>
    if b then
      match pyGetD rd "candidates" (.arr []) with
      | .error e => .error e
      | .ok v =>
        match pyIter v with
        | .error e => .error e
        | .ok xs => exceptFold gacCandidateStep acc xs
    else .ok acc

/-- Lines 451-453, the Cohere `text` field. -/
def gacText (rd : Json) (acc : String) : Except PyErr String :=
  match pyIn rd "text" with
  | .error e => .error e
  | .ok b =>
    if b then
      match pyGet rd "text" with
      | .error e => .error e
      | .ok v =>
        match v.getD .null with
        | .str s => .ok (acc ++ s ++ "\n")
        | _ => .ok acc
    else .ok acc

/-- Lines 454-457, the Cohere `generations` list. -/
def gacGenerations (rd : Json) (acc : String) : Except PyErr String :=
  match pyIn rd "generations" with
  | .error e => .error e
  | .ok b =>
    if b then
      match pyGetD rd "generations" (.arr []) with
      | .error e => .error e
      | .ok v =>
        match pyIter v with
        | .error e => .error e
        | .ok xs => exceptFold gacTextFieldStep acc xs
    else .ok acc

/-- Lines 459-465, the Replicate `output` field. -/
def gacOutput (rd : Json) (acc : String) : Except PyErr String :=
  match pyIn rd "output" with
  | .error e => .error e
  | .ok b =>
    if b then
      match pyGet rd "output" with
      | .error e => .error e
      | .ok v =>
        match v.getD .null with
        | .str s => .ok (acc ++ s ++ "\n")
        | .arr xs => .ok (acc ++ String.join (xs.map pyStr) ++ "\n")
        | _ => .ok acc
    else .ok acc

/-- Chain one extraction branch after another, propagating exceptions. -/
def gacSeq (step : Json → String → Except PyErr String) (rd : Json)
    (r : Except PyErr String) : Except PyErr String :=
  match r with
  | .error e => .error e
  | .ok acc => step rd acc

/-- `AimemInterceptor._get_assistant_content`. -/
def get_assistant_content (rd : Json) : Except PyErr String :=
  gacSeq gacOutput rd (gacSeq gacGenerations rd (gacSeq gacText rd
    (gacSeq gacCandidates rd (gacSeq gacChoices rd (gacContent rd "")))))

/-! ### A sufficient well-typedness condition for the JSON extractor

Modelled from the spec: §4.2 requires "extraction never raises for
malformed input".  The code does not satisfy that for arbitrary input (a
text-bearing field of non-string type raises, see `c3_counterexample`),
so the amended guarantee is conditional on the provider fields, when
present, carrying the documented shapes.  `wellTypedResp` is that
decidable condition, written after the spec's description of the
provider response shapes. -/

/-- A `.get` result that is only appended when truthy: safe if absent,
falsy, or a string. -/
def wtTruthyStr (v : Option Json) : Bool :=
  !truthy (v.getD .null) ||
    (match v.getD .null with | .str _ => true | _ => false)

/-- An Anthropic content block: if it is a dict tagged `type: "text"`,
its `text` must be a string (default ""). -/
def wtBlock : Json → Bool
  | .obj bfs =>
    !(isStrVal (getEntry bfs "type") "text") ||
      (match (getEntry bfs "text").getD (.str "") with
       | .str _ => true
       | _ => false)
  | _ => true

/-- An OpenAI choice: a dict whose `message`/`delta` (defaulting to `{}`)
are dicts with string `content` when truthy. -/
def wtChoice : Json → Bool
  | .obj cfs =>
    (match (getEntry cfs "message").getD (.obj []) with
     | .obj mfs => wtTruthyStr (getEntry mfs "content")
     | _ => false) &&
    (match (getEntry cfs "delta").getD (.obj []) with
     | .obj dfs => wtTruthyStr (getEntry dfs "content")
     | _ => false)
  | _ => false

/-- A Gemini part or Cohere generation: a dict with string `text` when
truthy. -/
def wtPart : Json → Bool
  | .obj pfs => wtTruthyStr (getEntry pfs "text")
  | _ => false

/-- A Gemini candidate: `content` a dict, its `parts` a list of
well-typed parts. -/
def wtCandidate : Json → Bool
  | .obj cfs =>
    (match (getEntry cfs "content").getD (.obj []) with
     | .obj ccfs =>
       (match (getEntry ccfs "parts").getD (.arr []) with
        | .arr ps => ps.all wtPart
        | _ => false)
     | _ => false)
  | _ => false

/-- A provider list field: absent, or a list of well-typed elements. -/
def wtListField (fs : List (String × Json)) (k : String)
    (elemOk : Json → Bool) : Bool :=
  !(hasKeyJ fs k) ||
    (match (getEntry fs k).getD (.arr []) with
     | .arr xs => xs.all elemOk
     | _ => false)

/-- The response body is a dict whose present provider fields carry the
documented shapes (`text` and `output` are shape-guarded in the code and
need no condition). -/
def wellTypedResp : Json → Bool
  | .obj fs =>
    (match getEntry fs "content" with
     | some (.arr blocks) => blocks.all wtBlock
     | _ => true) &&
    wtListField fs "choices" wtChoice &&
    wtListField fs "candidates" wtCandidate &&
    wtListField fs "generations" wtPart
  | _ => false

/-! ### Context synthesis (interceptor.py lines 306-359)

The SQL query and its possible failure are abstracted as an
`Except`-valued list of `(content, type)` rows; the `except` branch of
the source logs and then falls through to `return ""`. -/

/-- Bullet rendering `context += f"- \x7bd\x7d\n"`. -/
def bullets (items : List String) : String :=
  String.join (items.map fun d => "- " ++ d ++ "\n")

def contextHeader (ts : String) : String :=
  "## Context (from aimem)\n\n**Current time:** " ++ ts ++ "\n\n"

def contextReminder : String :=
  "_Use `aimem_decisions <topic>` to query more context before claiming something isn\x27t implemented._\n\n"

def contextNoResults (ts : String) : String :=
  contextHeader ts ++
  "_Use `aimem_decisions <topic>` to check past decisions and `aimem_verify <name>` to check if code exists._\n\n"

/-- `AimemInterceptor.get_relevant_context`, as a function of the query
outcome and of the formatted current-time stamp. -/
def get_relevant_context (q : Except PyErr (List (String × String)))
    (ts : String) : String :=
  match q with
  | .error _ => ""
  | .ok results =>
    if results.isEmpty then contextNoResults ts
    else
      let decisions := (results.filter fun r => r.2 = "decision").map fun r => r.1
      let rejections := (results.filter fun r => r.2 = "rejection").map fun r => r.1
      let dsec :=
        if decisions.isEmpty then ""
        else "### Recent Decisions\n" ++ bullets (decisions.take 5) ++ "\n"
      let rsec :=
        if rejections.isEmpty then ""
        else "### Approaches Rejected\n" ++ bullets (rejections.take 3) ++ "\n"
      contextHeader ts ++ contextReminder ++ dsec ++ rsec

/-! ### Context injection into requests (interceptor.py lines 469-538)

The four provider strategies of `request` are embedded as field
transformers over the parsed body; the `injected` flag mirrors the
source's local variable, and `newRequestBody` reflects that
`flow.request.content` is reassigned only on the `injected` path and is
untouched when an exception escapes to the handler's blanket `except`. -/

/-- Lines 494-499, the Anthropic `system` field. -/
def injectSystemField (ctx : String) (fs : List (String × Json)) :
    Except PyErr (List (String × Json)) :=
  if hasKeyJ fs "system" then
    match getEntry fs "system" with
    | some (.str s) => .ok (setEntry fs "system" (.str (ctx ++ "\n\n" ++ s)))
    | _ => .error .typeError
  else .ok (setEntry fs "system" (.str ctx))

/-- The fresh system message inserted at line 508. -/
def freshSystemMessage (ctx : String) : Json :=
  .obj [("role", .str "system"), ("content", .str ctx)]

/-- Lines 503-510, the OpenAI-compatible leading system message.  A
non-list `messages` value raises (`messages[0]`/`messages.insert` on a
non-list; the exact CPython exception kind depends on the value's type
and truthiness — any of them aborts the handler identically). -/
def injectMessages (ctx : String) (fs : List (String × Json)) :
    Except PyErr (List (String × Json)) :=
  match (getEntry fs "messages").getD (.arr []) with
  | .arr [] =>
    .ok (setEntry fs "messages" (.arr [freshSystemMessage ctx]))
  | .arr (m :: rest) =>
    (match m with
     | .obj mfs =>
       if isStrVal (getEntry mfs "role") "system" then
         match getEntry mfs "content" with
         | some (.str s) =>
           .ok (setEntry fs "messages"
             (.arr (.obj (setEntry mfs "content" (.str (ctx ++ "\n\n" ++ s))) :: rest)))
         | _ => .error .typeError
       else
         .ok (setEntry fs "messages" (.arr (freshSystemMessage ctx :: m :: rest)))
     | _ => .error .attributeError)
  | other => .error (if truthy other then .typeError else .attributeError)

/-- The fresh `system_instruction` structure of lines 519/521. -/
def freshSystemInstruction (ctx : String) : Json :=
  .obj [("parts", .arr [.obj [("text", .str ctx)]])]

/-- Lines 513-522, the Gemini `system_instruction` field. -/
def injectGemini (ctx : String) (fs : List (String × Json)) :
    Except PyErr (List (String × Json)) :=
  if hasKeyJ fs "system_instruction" then
    match getEntry fs "system_instruction" with
    | some (.obj efs) =>
      if hasKeyJ efs "parts" then
        match getEntry efs "parts" with
        | some (.arr parts) =>
          .ok (setEntry fs "system_instruction"
            (.obj (setEntry efs "parts"
              (.arr (.obj [("text", .str (ctx ++ "\n\n"))] :: parts)))))
        | _ => .error .attributeError
      else .ok (setEntry fs "system_instruction" (freshSystemInstruction ctx))
    | _ => .ok (setEntry fs "system_instruction" (freshSystemInstruction ctx))
  else .ok (setEntry fs "system_instruction" (freshSystemInstruction ctx))

/-- Lines 525-530, the Cohere `preamble` field. -/
def injectCohere (ctx : String) (fs : List (String × Json)) :
    Except PyErr (List (String × Json)) :=
  if hasKeyJ fs "preamble" then
    match getEntry fs "preamble" with
    | some (.str s) => .ok (setEntry fs "preamble" (.str (ctx ++ "\n\n" ++ s)))
    | _ => .error .typeError
  else .ok (setEntry fs "preamble" (.str ctx))

/-- Lines 487-531 given the already-synthesized context string: the
probe `data.get("messages", [])` of line 487 (which raises on a non-dict
body), the `if context:` guard, then the four independent strategies on
the lowered host. -/
def inject_context (host ctx : String) (data : Json) :
    Except PyErr (Json × Bool) :=
  match pyGet data "messages" with
  | .error e => .error e
  | .ok _ =>
    if ctx = "" then .ok (data, false)
    else
      match data with
      | .obj fs₀ =>
        (match (if strContainsB (pyLower host) "anthropic" && hasKeyJ fs₀ "messages" then
                  (injectSystemField ctx fs₀).map (fun fs => (fs, true))
                else if hasKeyJ fs₀ "messages" then
                  (injectMessages ctx fs₀).map (fun fs => (fs, true))
                else .ok (fs₀, false)) with
         | .error e => .error e
         | .ok (fs₁, inj₁) =>
           (match (if strContainsB (pyLower host) "generativelanguage.googleapis" then
                     (injectGemini ctx fs₁).map (fun fs => (fs, true))
                   else .ok (fs₁, inj₁)) with
            | .error e => .error e
            | .ok (fs₂, inj₂) =>
              (match (if strContainsB (pyLower host) "cohere" then
                        (injectCohere ctx fs₂).map (fun fs => (fs, true))
                      else .ok (fs₂, inj₂)) with
               | .error e => .error e
               | .ok (fs₃, inj₃) => .ok (.obj fs₃, inj₃))))
      | _ => .error .attributeError

/-- The body actually forwarded: reassigned only when `injected` is set
(line 532); an escaping exception leaves the original bytes in place. -/
def newRequestBody (host ctx : String) (data : Json) : Json :=
  match inject_context host ctx data with
  | .ok (d, true) => d
  | _ => data

/-! ### `json.dumps` (used for the stored conversation blob) -/

def hexDigit (n : Nat) : Char :=
  if n < 10 then Char.ofNat (48 + n) else Char.ofNat (87 + n)

def escChar (c : Char) : String :=
  if c = '"' then "\\\""
  else if c = '\\' then "\\\\"
  else if c = '\n' then "\\n"
  else if c = '\t' then "\\t"
  else if c = '\r' then "\\r"
  else if c.toNat < 32 then
    "\\u00" ++ ⟨[hexDigit (c.toNat / 16), hexDigit (c.toNat % 16)]⟩
  else ⟨[c]⟩

def dumpStr (s : String) : String :=
  "\"" ++ String.join (s.data.map escChar) ++ "\""

mutual

def json_dumps : Json → String
  | .null => "null"
  | .bool true => "true"
  | .bool false => "false"
  | .num m e => if e = 0 then toString m else toString m ++ "e" ++ toString e
  | .str s => dumpStr s
  | .arr xs => "[" ++ dumpsList xs ++ "]"
  | .obj fs => "\x7b" ++ dumpsFields fs ++ "\x7d"

def dumpsList : List Json → String
  | [] => ""
  | [x] => json_dumps x
  | x :: y :: t => json_dumps x ++ ", " ++ dumpsList (y :: t)

def dumpsFields : List (String × Json) → String
  | [] => ""
  | [(k, v)] => dumpStr k ++ ": " ++ json_dumps v
  | (k, v) :: p :: t => dumpStr k ++ ": " ++ json_dumps v ++ ", " ++ dumpsFields (p :: t)

end

/-! ### Persistence (interceptor.py lines 230-304)

SQLite is embedded as an explicit `DB` state; the cursor-level result of
the duplicate-check query (a `COUNT(*)` which may raise on storage
failure) is abstracted as the `Except`-valued input of
`is_duplicate_extraction`, and `store_conversation` takes the composed
per-content duplicate verdict as an oracle.  The embedding models the
normal (non-raising) execution of `store_conversation`; its own blanket
`except` only converts a storage failure into "nothing persisted". -/

structure ConversationRow where
  id : Nat
  projectId : Int
  model : Json
  tool : String
  summary : String
  rawContent : String
  timestamp : String

structure ExtractionRow where
  id : Nat
  conversationId : Nat
  type : String
  content : String
  entities : List String

structure LinkRow where
  sourceType : String
  sourceId : Nat
  targetType : String
  targetId : Nat
  linkType : String
  deriving DecidableEq, Repr

structure StructureRow where
  id : Nat
  name : String
  projectId : Int

structure DB where
  conversations : List ConversationRow
  extractions : List ExtractionRow
  links : List LinkRow
  structures : List StructureRow
  nextConvId : Nat
  nextExtId : Nat

/-- `AimemInterceptor._is_duplicate_extraction` (lines 230-244): the
window query's outcome is `count` on success; any storage-layer
exception lands in the `except` branch, which returns `False`. -/
def is_duplicate_extraction (queryResult : Except PyErr Nat) : Bool :=
  match queryResult with
  | .ok count => count > 0
  | .error _ => false

/-- `INSERT OR IGNORE INTO links ...` (lines 295-298). -/
def insertLinkIgnore (links : List LinkRow) (row : LinkRow) : List LinkRow :=
  if links.contains row then links else links ++ [row]

/-- Lines 285-298: link one stored extraction's entities to the known
structures of the project. -/
def addLinks (db : DB) (extId : Nat) (projectId : Int) (extType : String)
    (entities : List String) : DB :=
  entities.foldl
    (fun db entity =>
      let matching := db.structures.filter fun s =>
        s.name = entity && s.projectId = projectId
      matching.foldl
        (fun db s =>
          let linkType := if extType = "decision" then "decision" else "rejected"
          let row : LinkRow :=
            { sourceType := "extraction", sourceId := extId,
              targetType := "structure", targetId := s.id,
              linkType := linkType }
          { db with links := insertLinkIgnore db.links row })
        db)
    db

/-- Lines 276-298: insert each surviving extraction and its links. -/
def storeExtractions (convId : Nat) (projectId : Int) :
    DB → List Extraction → DB
  | db, [] => db
  | db, e :: rest =>
    let extId := db.nextExtId
    let db₁ := { db with
      extractions := db.extractions ++
        [{ id := extId, conversationId := convId, type := e.type,
           content := e.content, entities := e.entities }],
      nextExtId := extId + 1 }
    let db₂ :=
      if projectId ≠ 0 && !e.entities.isEmpty then
        addLinks db₁ extId projectId e.type e.entities
      else db₁
    storeExtractions convId projectId db₂ rest

/-- `AimemInterceptor.store_conversation` (lines 246-304) under a
successful storage backend, with the per-candidate duplicate verdict
supplied by `isDup`. -/
def store_conversation (db : DB) (projectId : Int) (model : Json)
    (tool : String) (content : String) (extractions : List Extraction)
    (assistantContent : String) (isDup : String → Bool) (nowIso : String) :
    DB :=
  let unique := extractions.filter fun e => !isDup e.content
  if extractions.isEmpty || !unique.isEmpty then
    let convId := db.nextConvId
    let db₁ := { db with
      conversations := db.conversations ++
        [{ id := convId, projectId := projectId, model := model, tool := tool,
           summary := assistantContent, rawContent := content,
           timestamp := nowIso }],
      nextConvId := convId + 1 }
    storeExtractions convId projectId db₁ unique
  else db

/-! ### The response handler (interceptor.py lines 540-591) -/

structure PendingInfo where
  host : String
  timestamp : String
  requestData : Option Json

structure ResponseFlow where
  id : String
  contentType : String
  content : Option String

structure ProxyState where
  pending : List (String × PendingInfo)
  db : DB

def lookupPending : List (String × PendingInfo) → String → Option PendingInfo
  | [], _ => none
  | (k, v) :: t, key => if k = key then some v else lookupPending t key

def erasePending : List (String × PendingInfo) → String → List (String × PendingInfo)
  | [], _ => []
  | (k, v) :: t, key => if k = key then t else (k, v) :: erasePending t key

/-- `AimemInterceptor._is_streaming_response` (lines 415-418). -/
def is_streaming_response (contentType : String) : Bool :=
  strContainsB contentType "text/event-stream" || strContainsB contentType "stream"

/-- `AimemInterceptor.get_model_from_request` on
`request_info.get("request_data", {})` (line 121-123, 549):
`data.get("model", "unknown")`, raising on a non-dict request body. -/
def get_model_from_request (data : Json) : Except PyErr Json :=
  (pyGetD data "model" (.str "unknown"))

/-- Lines 568-586: extraction and storage, once assistant content was
reconstructed.  `extractDecisions` abstracts the pattern engine of
`extract_decisions` (its output shape is all `response` depends on). -/
def finishResponse (st : ProxyState) (info : PendingInfo) (ac : String)
    (requestData responseData : Json)
    (extractDecisions : String → List Extraction) (projectId : Int)
    (isDup : String → Bool) (nowIso : String) : ProxyState :=
  if ac = "" then st
  else
    let extractions := extractDecisions ac
    let conversation : Json := .obj
      [("request", requestData), ("response", responseData),
       ("assistant_content", .str (strTake ac 5000)),
       ("timestamp", .str info.timestamp)]
    match get_model_from_request requestData with
    | .error _ => st
    | .ok model =>
      let tool := get_tool_from_host info.host
      { st with db := (store_conversation st.db projectId model tool
          (json_dumps conversation) extractions ac isDup nowIso) }

/-- `AimemInterceptor.response` (lines 540-591). -/
def respond (st : ProxyState) (flow : ResponseFlow)
    (extractDecisions : String → List Extraction) (projectId : Int)
    (isDup : String → Bool) (nowIso : String) : ProxyState :=
  match lookupPending st.pending flow.id with
  | none => st
  | some info =>
    let st' : ProxyState := { st with pending := erasePending st.pending flow.id }
    match flow.content with
    | none => st'
    | some body =>
      if body = "" then st'
      else
        let requestData := info.requestData.getD (.obj [])
        if is_streaming_response flow.contentType then
          let ac := parse_sse_content body
          let responseData : Json := .obj [("streamed_content", .str (strTake ac 1000))]
          finishResponse st' info ac requestData responseData
            extractDecisions projectId isDup nowIso
        else
          match json_loads body with
          | none => st'
          | some responseData =>
            match get_assistant_content responseData with
            | .error _ => st'
            | .ok ac =>
              finishResponse st' info ac requestData responseData
                extractDecisions projectId isDup nowIso

/-- The assistant content the handler would act on, `none` when the
body is absent/empty, fails JSON decoding (non-streaming), or the
extractor raises. -/
def responseExtractedContent (flow : ResponseFlow) : Option String :=
  match flow.content with
  | none => none
  | some body =>
    if body = "" then none
    else if is_streaming_response flow.contentType then
      some (parse_sse_content body)
    else
      match json_loads body with
      | none => none
      | some rd => (get_assistant_content rd).toOption


/-! ## Supporting lemmas -/

theorem listContains_nil_right [BEq α] (hay : List α) :
    listContains hay [] = true := by
  cases hay <;> simp [listContains, List.isEmpty, List.isPrefixOf]

theorem isPrefixOf_append [DecidableEq α] (l t : List α) :
    List.isPrefixOf l (l ++ t) = true := by
  induction l with
  | nil => simp [List.isPrefixOf]
  | cons a as ih => simp [List.isPrefixOf, ih]

theorem listContains_of_decomp [DecidableEq α] (a n b : List α) :
    listContains (a ++ n ++ b) n = true := by
  induction a with
  | nil =>
    cases n with
    | nil => simp [listContains_nil_right]
    | cons x xs =>
      simp only [List.nil_append, List.cons_append, listContains, Bool.or_eq_true]
      exact Or.inl (by simpa using isPrefixOf_append (x :: xs) b)
  | cons c cs ih =>
    cases n with
    | nil => simp [listContains_nil_right]
    | cons x xs =>
      simp only [List.cons_append, listContains, Bool.or_eq_true]
      exact Or.inr (by simpa using ih)

theorem strContainsB_of_decomp (a n b : String) :
    strContainsB (a ++ n ++ b) n = true := by
  have h : (a ++ n ++ b).data = a.data ++ n.data ++ b.data := by
    simp [String.data_append]
  simpa [strContainsB, h] using listContains_of_decomp a.data n.data b.data

theorem strStartsB_append (pre rest : String) :
    strStartsB (pre ++ rest) pre = true := by
  have h : (pre ++ rest).data = pre.data ++ rest.data := by
    simp [String.data_append]
  simpa [strStartsB, h] using isPrefixOf_append pre.data rest.data

theorem strStartsB_refl (s : String) :
    strStartsB s s = true := by
  have := strStartsB_append s ""
  simpa using this

/-- A prefix of a list is contained in any extension of it. -/
theorem listContains_of_isPrefixOf [DecidableEq α] {hay needle : List α}
    (h : List.isPrefixOf needle hay = true) : listContains hay needle = true := by
  cases hay with
  | nil =>
    cases needle with
    | nil => simp [listContains, List.isEmpty]
    | cons x xs => simp [List.isPrefixOf] at h
  | cons c t =>
    unfold listContains
    rw [Bool.or_eq_true]
    exact Or.inl h

theorem strContainsB_of_startsB {s pre : String} (h : strStartsB s pre = true) :
    strContainsB s pre = true :=
  listContains_of_isPrefixOf h

theorem isPrefixOf_iff [DecidableEq α] (l m : List α) :
    List.isPrefixOf l m = true ↔ ∃ t, m = l ++ t := by
  induction l generalizing m with
  | nil => simp [List.isPrefixOf]
  | cons a as ih =>
    cases m with
    | nil =>
      simp [List.isPrefixOf]
    | cons b bs =>
      simp only [List.isPrefixOf, Bool.and_eq_true, beq_iff_eq, ih, List.cons_append,
        List.cons.injEq]
      constructor
      · rintro ⟨rfl, t, rfl⟩
        exact ⟨t, rfl, rfl⟩
      · rintro ⟨t, rfl, rfl⟩
        exact ⟨rfl, t, rfl⟩

theorem listContains_iff [DecidableEq α] (hay needle : List α) :
    listContains hay needle = true ↔ ∃ s t, hay = s ++ needle ++ t := by
  constructor
  · intro h
    induction hay with
    | nil =>
      cases needle with
      | nil => exact ⟨[], [], rfl⟩
      | cons x xs => simp [listContains, List.isEmpty] at h
    | cons c t ih =>
      rw [listContains, Bool.or_eq_true] at h
      rcases h with h | h
      · obtain ⟨u, hu⟩ := (isPrefixOf_iff needle (c :: t)).mp h
        exact ⟨[], u, by simp [hu]⟩
      · obtain ⟨s, u, hsu⟩ := ih h
        exact ⟨c :: s, u, by simp [hsu]⟩
  · rintro ⟨s, t, rfl⟩
    exact listContains_of_decomp s needle t

theorem strContainsB_iff (hay needle : String) :
    strContainsB hay needle = true ↔
      ∃ s t, hay.data = s ++ needle.data ++ t := by
  exact listContains_iff hay.data needle.data

theorem strContainsB_lower {hay t : String} (h : strContainsB hay t = true) :
    strContainsB (pyLower hay) (pyLower t) = true := by
  obtain ⟨s, u, hsu⟩ := (strContainsB_iff hay t).mp h
  refine (strContainsB_iff (pyLower hay) (pyLower t)).mpr
    ⟨s.map Char.toLower, u.map Char.toLower, ?_⟩
  simp [pyLower, hsu]

theorem strContainsB_trans {a b c : String}
    (h1 : strContainsB a b = true) (h2 : strContainsB b c = true) :
    strContainsB a c = true := by
  obtain ⟨s, t, hst⟩ := (strContainsB_iff a b).mp h1
  obtain ⟨u, v, huv⟩ := (strContainsB_iff b c).mp h2
  refine (strContainsB_iff a c).mpr ⟨s ++ u, v ++ t, ?_⟩
  simp [hst, huv]

theorem dropWhile_length_le (p : α → Bool) (l : List α) :
    (l.dropWhile p).length ≤ l.length := by
  induction l with
  | nil => simp
  | cons a t ih =>
    by_cases h : p a
    · simpa [List.dropWhile_cons, h] using Nat.le_succ_of_le ih
    · simp [List.dropWhile_cons, h]


/-! ## Claim C2 -/

/-- If a condition chain whose attached results are all distinct from
"unknown" evaluates to "unknown", every condition in it is false. -/
theorem condChain_unknown {l : List (Bool × String)}
    (hr : ∀ p ∈ l, p.2 ≠ "unknown")
    (h : condChain l = "unknown") : ∀ p ∈ l, p.1 = false := by
  induction l with
  | nil => simp
  | cons q t ih =>
    intro p hp
    rw [condChain] at h
    by_cases hq : q.1 = true
    · rw [if_pos hq] at h
      exact absurd h (hr q (List.mem_cons_self q t))
    · rcases List.mem_cons.mp hp with rfl | hpt
      · exact Bool.not_eq_true _ ▸ hq
      · exact ih (fun r hrm => hr r (List.mem_cons_of_mem q hrm)) (by rwa [if_neg hq] at h) p hpt

/-- If `get_tool_from_lower` classifies a lowered host as "unknown", then
none of the fragment-containment conditions of its chain held. -/
theorem get_tool_unknown_all_false (hl : String)
    (h : get_tool_from_lower hl = "unknown") :
    strContainsB hl "anthropic" = false ∧
    strContainsB hl "openai" = false ∧
    strContainsB hl "generativelanguage.googleapis" = false ∧
    strContainsB hl "mistral" = false ∧
    strContainsB hl "cohere" = false ∧
    strContainsB hl "groq" = false ∧
    strContainsB hl "together" = false ∧
    strContainsB hl "perplexity" = false ∧
    strContainsB hl "fireworks" = false ∧
    strContainsB hl "replicate" = false ∧
    strContainsB hl "deepseek" = false ∧
    strContainsB hl "11434" = false ∧
    strContainsB hl "1234" = false := by
  unfold get_tool_from_lower at h
  have H := @condChain_unknown (toolTable hl)
    (by intro p hp; unfold toolTable at hp; fin_cases hp <;> simp) h
  unfold toolTable at H
  simp only [List.mem_cons, List.not_mem_nil, or_false, forall_eq_or_imp, forall_eq] at H
  obtain ⟨g1, g2, g3, g4, g5, g6, g7, g8, g9, g10, g11, g12, g13⟩ := H
  rw [Bool.or_eq_false_iff] at g12
  exact ⟨g1, g2, g3, g4, g5, g6, g7, g8, g9, g10, g11, g12.1, g13⟩

/-- Transfer a containment through lowering and into a fragment of the
matched target. -/
theorem frag_of_target (frag : String) {host t : String}
    (hc : strContainsB host t = true)
    (hlow : pyLower t = t)
    (hfrag : strContainsB t frag = true) :
    strContainsB (pyLower host) frag = true :=
  strContainsB_trans (hlow ▸ strContainsB_lower hc) hfrag

/-- C2 (amended, forward direction): every recognized target host is
classified as a known (non-"unknown") tool by `get_tool_from_host`.  The
converse direction of the claimed equivalence is refuted by
`c2_counterexample`. -/
theorem c2_target_host_implies_known_tool (host : String)
    (h : is_target_host host = true) :
    get_tool_from_host host ≠ "unknown" := by
  intro hu
  obtain ⟨f1, f2, f3, f4, f5, f6, f7, f8, f9, f10, f11, f12, f13⟩ :=
    get_tool_unknown_all_false (pyLower host) hu
  unfold is_target_host at h
  rw [List.any_eq_true] at h
  obtain ⟨t, ht, hc⟩ := h
  simp only [TARGET_HOSTS, List.mem_cons, List.not_mem_nil, or_false] at ht
  rcases ht with rfl|rfl|rfl|rfl|rfl|rfl|rfl|rfl|rfl|rfl|rfl|rfl|rfl|rfl|rfl|rfl
  · exact absurd (frag_of_target "anthropic" hc (by decide) (by decide)) (by simp [f1])
  · exact absurd (frag_of_target "openai" hc (by decide) (by decide)) (by simp [f2])
  · exact absurd (frag_of_target "generativelanguage.googleapis" hc (by decide) (by decide)) (by simp [f3])
  · exact absurd (frag_of_target "mistral" hc (by decide) (by decide)) (by simp [f4])
  · exact absurd (frag_of_target "cohere" hc (by decide) (by decide)) (by simp [f5])
  · exact absurd (frag_of_target "cohere" hc (by decide) (by decide)) (by simp [f5])
  · exact absurd (frag_of_target "groq" hc (by decide) (by decide)) (by simp [f6])
  · exact absurd (frag_of_target "together" hc (by decide) (by decide)) (by simp [f7])
  · exact absurd (frag_of_target "perplexity" hc (by decide) (by decide)) (by simp [f8])
  · exact absurd (frag_of_target "fireworks" hc (by decide) (by decide)) (by simp [f9])
  · exact absurd (frag_of_target "replicate" hc (by decide) (by decide)) (by simp [f10])
  · exact absurd (frag_of_target "deepseek" hc (by decide) (by decide)) (by simp [f11])
  · exact absurd (frag_of_target "11434" hc (by decide) (by decide)) (by simp [f12])
  · exact absurd (frag_of_target "11434" hc (by decide) (by decide)) (by simp [f12])
  · exact absurd (frag_of_target "1234" hc (by decide) (by decide)) (by simp [f13])
  · exact absurd (frag_of_target "1234" hc (by decide) (by decide)) (by simp [f13])


/-- C2 counterexample: the host string "anthropic" refutes the claimed
equivalence — `get_tool_from_host` classifies it as "claude" (not
"unknown") while `is_target_host` is false, since no full target host
name occurs in it. -/
theorem c2_counterexample :
    ¬ (is_target_host "anthropic" = true ↔
        get_tool_from_host "anthropic" ≠ "unknown") := by
  intro h
  have : is_target_host "anthropic" = true := h.mpr (by decide)
  exact absurd this (by decide)

/-- C2 witness: the amended implication applied at a concrete target
host. -/
theorem c2_target_host_implies_known_tool_witness :
    is_target_host "api.anthropic.com" = true ∧
    get_tool_from_host "api.anthropic.com" ≠ "unknown" :=
  ⟨by decide, c2_target_host_implies_known_tool "api.anthropic.com" (by decide)⟩

/-! ## Claim C6 -/

/-- C6: a storage-layer error during the duplicate check makes
`_is_duplicate_extraction` return false (fail open), so in
`store_conversation`'s duplicate filter every candidate checked against a
failing backend survives (is treated as unique, not dropped). -/
theorem c6_dup_check_fails_open (e : PyErr) (exts : List Extraction) :
    is_duplicate_extraction (Except.error e) = false ∧
    exts.filter (fun _ => !is_duplicate_extraction (Except.error e)) = exts := by
  refine ⟨rfl, ?_⟩
  simp [is_duplicate_extraction]



/-! ## Claim C5 -/

theorem addLinks_conversations (db : DB) (extId : Nat) (pid : Int)
    (ty : String) (ents : List String) :
    (addLinks db extId pid ty ents).conversations = db.conversations := by
  unfold addLinks
  induction ents generalizing db with
  | nil => rfl
  | cons a t ih =>
    rw [List.foldl_cons]
    rw [ih]
    generalize (db.structures.filter _) = ms
    induction ms generalizing db with
    | nil => rfl
    | cons s ss ihs =>
      rw [List.foldl_cons]
      exact ihs _

theorem storeExtractions_conversations (convId : Nat) (pid : Int)
    (db : DB) (l : List Extraction) :
    (storeExtractions convId pid db l).conversations = db.conversations := by
  induction l generalizing db with
  | nil => rfl
  | cons e t ih =>
    rw [storeExtractions]
    split
    · rw [ih, addLinks_conversations]
    · rw [ih]

/-- C5: `store_conversation` appends a ConversationRecord exactly when
the candidate list is empty or at least one candidate survives the
duplicate filter; when the list is non-empty and every candidate is a
duplicate, the database is completely unchanged (no conversation, no
extraction, no link rows). -/
theorem c5_conversation_write_iff (db : DB) (pid : Int) (model : Json)
    (tool content ac nowIso : String) (exts : List Extraction)
    (isDup : String → Bool) :
    ((store_conversation db pid model tool content exts ac isDup nowIso).conversations.length
        = db.conversations.length + 1 ↔
      (exts = [] ∨ ∃ e ∈ exts, isDup e.content = false)) ∧
    ((exts ≠ [] ∧ ∀ e ∈ exts, isDup e.content = true) →
      store_conversation db pid model tool content exts ac isDup nowIso = db) := by
  have condIff :
      (exts.isEmpty || !(exts.filter fun e => !isDup e.content).isEmpty) = true ↔
        (exts = [] ∨ ∃ e ∈ exts, isDup e.content = false) := by
    simp [List.filter_eq_nil_iff]
  by_cases hcond :
      (exts.isEmpty || !(exts.filter fun e => !isDup e.content).isEmpty) = true
  · have hd := condIff.mp hcond
    simp only [store_conversation, if_pos hcond]
    constructor
    · refine iff_of_true ?_ hd
      rw [storeExtractions_conversations]
      simp
    · rintro ⟨hne, hall⟩
      rcases hd with rfl | ⟨e, hem, hfalse⟩
      · exact absurd rfl hne
      · rw [hall e hem] at hfalse
        exact absurd hfalse (by decide)
  · have hd : ¬(exts = [] ∨ ∃ e ∈ exts, isDup e.content = false) := fun h =>
      hcond (condIff.mpr h)
    simp only [store_conversation, if_neg hcond]
    constructor
    · exact iff_of_false (by simp) hd
    · intro _
      trivial

/-- C5 witness: with one candidate that the duplicate filter reports as
already known, nothing is written; with none, a conversation is written. -/
theorem c5_conversation_write_iff_witness :
    let db0 : DB := ⟨[], [], [], [], 0, 0⟩
    let e0 : Extraction := ⟨"decision", "use Redis", []⟩
    ((store_conversation db0 7 (Json.str "m") "claude" "raw" [e0] "ac"
        (fun _ => true) "t").conversations.length = db0.conversations.length + 1 ↔
      ([e0] = [] ∨ ∃ e ∈ [e0], (fun _ => true) e.content = false)) ∧
    (([e0] ≠ [] ∧ ∀ e ∈ [e0], (fun _ => true) e.content = true) →
      store_conversation db0 7 (Json.str "m") "claude" "raw" [e0] "ac"
        (fun _ => true) "t" = db0) :=
  c5_conversation_write_iff _ 7 (Json.str "m") "claude" "raw" "ac" "t" [⟨"decision", "use Redis", []⟩] (fun _ => true)



/-! ## Claim C9 -/

theorem dedupExtractions_sublist (seen : List String) (l : List Extraction) :
    List.Sublist (dedupExtractions seen l) l := by
  induction l generalizing seen with
  | nil => simp [dedupExtractions]
  | cons e t ih =>
    rw [dedupExtractions]
    split
    · exact List.Sublist.cons e (ih seen)
    · exact List.Sublist.cons₂ e (ih (extKey e :: seen))

theorem dedupExtractions_key_not_seen {seen : List String}
    {l : List Extraction} {e : Extraction}
    (h : e ∈ dedupExtractions seen l) : extKey e ∉ seen := by
  induction l generalizing seen with
  | nil => simp [dedupExtractions] at h
  | cons x t ih =>
    rw [dedupExtractions] at h
    split at h
    · exact ih h
    · rcases List.mem_cons.mp h with rfl | hm
      · assumption
      · exact fun hs => ih hm (List.mem_cons_of_mem _ hs)

theorem dedupExtractions_keys_nodup (seen : List String) (l : List Extraction) :
    ((dedupExtractions seen l).map extKey).Nodup := by
  induction l generalizing seen with
  | nil => simp [dedupExtractions]
  | cons e t ih =>
    rw [dedupExtractions]
    split
    · exact ih seen
    · rw [List.map_cons, List.nodup_cons]
      refine ⟨?_, ih (extKey e :: seen)⟩
      intro hmem
      obtain ⟨e', he', hk⟩ := List.mem_map.mp hmem
      exact dedupExtractions_key_not_seen he' (hk ▸ List.mem_cons_self _ _)

theorem dedupExtractions_covers {seen : List String} {l : List Extraction}
    {e : Extraction} (he : e ∈ l) :
    extKey e ∈ seen ∨ ∃ e' ∈ dedupExtractions seen l, extKey e' = extKey e := by
  induction l generalizing seen with
  | nil => simp at he
  | cons x t ih =>
    rw [dedupExtractions]
    rcases List.mem_cons.mp he with rfl | hm
    · split
      · exact Or.inl (by assumption)
      · exact Or.inr ⟨e, List.mem_cons_self _ _, rfl⟩
    · split
      · rcases ih hm with h | ⟨e', he', hk⟩
        · exact Or.inl h
        · exact Or.inr ⟨e', he', hk⟩
      · rcases @ih (extKey x :: seen) hm with h | ⟨e', he', hk⟩
        · rcases List.mem_cons.mp h with hx | hs
          · exact Or.inr ⟨x, List.mem_cons_self _ _, hx.symm⟩
          · exact Or.inl hs
        · exact Or.inr ⟨e', List.mem_cons_of_mem _ he', hk⟩

theorem dedupExtractions_earliest {seen : List String} {l : List Extraction}
    {e' : Extraction} (h : e' ∈ dedupExtractions seen l) :
    l.find? (fun e => extKey e == extKey e') = some e' := by
  induction l generalizing seen with
  | nil => simp [dedupExtractions] at h
  | cons x t ih =>
    rw [dedupExtractions] at h
    rw [List.find?]
    split at h
    · rename_i hseen
      have hne : (extKey x == extKey e') = false := by
        simp only [beq_eq_false_iff_ne, ne_eq]
        intro hk
        exact dedupExtractions_key_not_seen h (hk ▸ hseen)
      rw [hne]
      exact ih h
    · rename_i hseen
      rcases List.mem_cons.mp h with rfl | hm
      · rw [show (extKey e' == extKey e') = true by simp]
      · have hne : (extKey x == extKey e') = false := by
          simp only [beq_eq_false_iff_ne, ne_eq]
          intro hk
          exact dedupExtractions_key_not_seen hm (hk ▸ List.mem_cons_self _ _)
        rw [hne]
        exact ih hm

/-- C9: in the deduplicated candidate list of `extract_decisions`, the
dedup key of a candidate is the first 80 characters of its trimmed,
lower-cased content (candidates are built with trimmed content); the kept
candidates form a subsequence of the raw candidate list with pairwise
distinct keys; every raw candidate's key is represented; and the
representative of each key is the earliest-produced candidate bearing it
(irrespective of its kind). -/
theorem c9_dedup (l : List Extraction)
    (ht : ∀ e ∈ l, pyStrip e.content = e.content) :
    (∀ e ∈ l, extKey e = strTake (pyLower (pyStrip e.content)) 80) ∧
    List.Sublist (dedupExtractions [] l) l ∧
    ((dedupExtractions [] l).map extKey).Nodup ∧
    (∀ e ∈ l, ∃ e' ∈ dedupExtractions [] l, extKey e' = extKey e) ∧
    (∀ e' ∈ dedupExtractions [] l,
      l.find? (fun e => extKey e == extKey e') = some e') := by
  refine ⟨?_, dedupExtractions_sublist [] l, dedupExtractions_keys_nodup [] l,
    ?_, fun e' h => dedupExtractions_earliest h⟩
  · intro e he
    rw [ht e he]
    unfold extKey pyLower strTake
    apply congrArg
    simp [List.map_take]
  · intro e he
    rcases @dedupExtractions_covers [] _ _ he with h | h
    · simp at h
    · exact h

/-- C9 witness: a batch with a decision and a rejection sharing the same
trimmed/lower-cased 80-character prefix keeps only the earlier decision. -/
theorem c9_dedup_witness :
    (∀ e ∈ ([⟨"decision", "We WILL use PostgreSQL", ["PostgreSQL"]⟩,
             ⟨"rejection", "we will use postgresql", []⟩,
             ⟨"decision", "Use Redis for caching", ["Redis"]⟩] : List Extraction),
        pyStrip e.content = e.content) ∧
    ((∀ e ∈ ([⟨"decision", "We WILL use PostgreSQL", ["PostgreSQL"]⟩,
              ⟨"rejection", "we will use postgresql", []⟩,
              ⟨"decision", "Use Redis for caching", ["Redis"]⟩] : List Extraction),
        extKey e = strTake (pyLower (pyStrip e.content)) 80) ∧
      List.Sublist (dedupExtractions []
        [⟨"decision", "We WILL use PostgreSQL", ["PostgreSQL"]⟩,
         ⟨"rejection", "we will use postgresql", []⟩,
         ⟨"decision", "Use Redis for caching", ["Redis"]⟩])
        [⟨"decision", "We WILL use PostgreSQL", ["PostgreSQL"]⟩,
         ⟨"rejection", "we will use postgresql", []⟩,
         ⟨"decision", "Use Redis for caching", ["Redis"]⟩] ∧
      ((dedupExtractions []
        [⟨"decision", "We WILL use PostgreSQL", ["PostgreSQL"]⟩,
         ⟨"rejection", "we will use postgresql", []⟩,
         ⟨"decision", "Use Redis for caching", ["Redis"]⟩]).map extKey).Nodup ∧
      (∀ e ∈ ([⟨"decision", "We WILL use PostgreSQL", ["PostgreSQL"]⟩,
               ⟨"rejection", "we will use postgresql", []⟩,
               ⟨"decision", "Use Redis for caching", ["Redis"]⟩] : List Extraction),
        ∃ e' ∈ dedupExtractions []
          [⟨"decision", "We WILL use PostgreSQL", ["PostgreSQL"]⟩,
           ⟨"rejection", "we will use postgresql", []⟩,
           ⟨"decision", "Use Redis for caching", ["Redis"]⟩], extKey e' = extKey e) ∧
      (∀ e' ∈ dedupExtractions []
          [⟨"decision", "We WILL use PostgreSQL", ["PostgreSQL"]⟩,
           ⟨"rejection", "we will use postgresql", []⟩,
           ⟨"decision", "Use Redis for caching", ["Redis"]⟩],
        List.find? (fun e => extKey e == extKey e')
          [⟨"decision", "We WILL use PostgreSQL", ["PostgreSQL"]⟩,
           ⟨"rejection", "we will use postgresql", []⟩,
           ⟨"decision", "Use Redis for caching", ["Redis"]⟩] = some e')) ∧
    dedupExtractions []
        [⟨"decision", "We WILL use PostgreSQL", ["PostgreSQL"]⟩,
         ⟨"rejection", "we will use postgresql", []⟩,
         ⟨"decision", "Use Redis for caching", ["Redis"]⟩] =
      [⟨"decision", "We WILL use PostgreSQL", ["PostgreSQL"]⟩,
       ⟨"decision", "Use Redis for caching", ["Redis"]⟩] :=
  ⟨by decide, c9_dedup _ (by decide), by decide⟩



/-! ## Claim C7 -/

theorem strContainsB_append_left {a n : String} (b : String)
    (h : strContainsB a n = true) : strContainsB (a ++ b) n = true := by
  obtain ⟨s, t, hst⟩ := (strContainsB_iff a n).mp h
  exact (strContainsB_iff _ n).mpr ⟨s, t ++ b.data, by simp [String.data_append, hst]⟩

theorem strContainsB_append_right {b n : String} (a : String)
    (h : strContainsB b n = true) : strContainsB (a ++ b) n = true := by
  obtain ⟨s, t, hst⟩ := (strContainsB_iff b n).mp h
  exact (strContainsB_iff _ n).mpr ⟨a.data ++ s, t, by simp [String.data_append, hst]⟩

theorem contextHeader_contains_ts (ts : String) :
    strContainsB (contextHeader ts) ts = true := by
  refine (strContainsB_iff _ ts).mpr
    ⟨("## Context (from aimem)\n\n**Current time:** ").data, ("\n\n").data, ?_⟩
  simp [contextHeader, String.data_append]

/-- C7 (amended): whenever the storage query succeeds,
`get_relevant_context` always contains the current-time stamp and the
`aimem_decisions` reminder, and its body consists of the header, a
reminder block, a decision section rendering at most 5 decision bullets
and a rejection section rendering at most 3 rejection bullets.  (When the
query fails the function instead returns the empty string — see
`c7_counterexample`.) -/
theorem c7_context_shape (rows : List (String × String)) (ts : String) :
    strContainsB (get_relevant_context (Except.ok rows) ts) ts = true ∧
    strContainsB (get_relevant_context (Except.ok rows) ts) "aimem_decisions" = true ∧
    ∃ (reminder dsec rsec : String) (ds rs : List String),
      get_relevant_context (Except.ok rows) ts =
        contextHeader ts ++ reminder ++ dsec ++ rsec ∧
      strContainsB reminder "aimem_decisions" = true ∧
      ds.length ≤ 5 ∧ rs.length ≤ 3 ∧
      (dsec = "" ∨ dsec = "### Recent Decisions\n" ++ bullets ds ++ "\n") ∧
      (rsec = "" ∨ rsec = "### Approaches Rejected\n" ++ bullets rs ++ "\n") := by
  by_cases hr : rows.isEmpty
  · have hout : get_relevant_context (Except.ok rows) ts = contextNoResults ts := by
      simp [get_relevant_context, hr]
    rw [hout]
    have halt : strContainsB
        "_Use `aimem_decisions <topic>` to check past decisions and `aimem_verify <name>` to check if code exists._\n\n"
        "aimem_decisions" = true := by decide
    refine ⟨?_, ?_, _, "", "", [], [], ?_, halt, by decide, by decide, Or.inl rfl, Or.inl rfl⟩
    · exact strContainsB_append_left _ (contextHeader_contains_ts ts)
    · exact strContainsB_append_right _ halt
    · simp [contextNoResults]
  · have hout : get_relevant_context (Except.ok rows) ts =
        contextHeader ts ++ contextReminder ++
          (if ((rows.filter fun r => r.2 = "decision").map fun r => r.1).isEmpty then ""
           else "### Recent Decisions\n" ++
             bullets (((rows.filter fun r => r.2 = "decision").map fun r => r.1).take 5) ++ "\n") ++
          (if ((rows.filter fun r => r.2 = "rejection").map fun r => r.1).isEmpty then ""
           else "### Approaches Rejected\n" ++
             bullets (((rows.filter fun r => r.2 = "rejection").map fun r => r.1).take 3) ++ "\n") := by
      simp only [get_relevant_context, hr]
      rfl
    have hrem : strContainsB contextReminder "aimem_decisions" = true := by decide
    rw [hout]
    refine ⟨?_, ?_, contextReminder, _, _,
      ((rows.filter fun r => r.2 = "decision").map fun r => r.1).take 5,
      ((rows.filter fun r => r.2 = "rejection").map fun r => r.1).take 3,
      rfl, hrem, ?_, ?_, ?_, ?_⟩
    · rw [String.append_assoc, String.append_assoc]
      exact strContainsB_append_left _ (contextHeader_contains_ts ts)
    · rw [String.append_assoc, String.append_assoc]
      refine strContainsB_append_right _ ?_
      rw [← String.append_assoc]
      exact strContainsB_append_left _ (strContainsB_append_left _ hrem)
    · exact le_trans (Nat.le_of_eq (List.length_take _ _)) (min_le_left _ _)
    · exact le_trans (Nat.le_of_eq (List.length_take _ _)) (min_le_left _ _)
    · split
      · exact Or.inl rfl
      · exact Or.inr rfl
    · split
      · exact Or.inl rfl
      · exact Or.inr rfl

/-- C7 counterexample: when the storage query raises, the synthesized
context is the empty string, which contains neither a time stamp nor the
reminder — refuting the "including when the storage query fails" part of
the claim. -/
theorem c7_counterexample :
    get_relevant_context (Except.error PyErr.typeError) "2026-10-12 09:00:00" = "" ∧
    strContainsB (get_relevant_context (Except.error PyErr.typeError) "2026-10-12 09:00:00")
      "2026-10-12 09:00:00" = false ∧
    strContainsB (get_relevant_context (Except.error PyErr.typeError) "2026-10-12 09:00:00")
      "aimem_decisions" = false := by
  refine ⟨rfl, by decide, by decide⟩



/-! ## Claim C8 -/

theorem wordRunsAux_chars {fuel : Nat} {l : List Char} {r : List Char}
    (h : r ∈ wordRunsAux fuel l) :
    r ≠ [] ∧ ∀ c ∈ r, isWordChar c = true := by
  induction fuel generalizing l with
  | zero => simp [wordRunsAux] at h
  | succ fuel ih =>
    cases l with
    | nil => simp [wordRunsAux] at h
    | cons c rest =>
      rw [wordRunsAux] at h
      split at h
      · rename_i hc
        rcases List.mem_cons.mp h with rfl | hm
        · refine ⟨by simp, ?_⟩
          intro x hx
          rcases List.mem_cons.mp hx with rfl | hx
          · exact hc
          · exact List.mem_takeWhile_imp hx
        · exact ih hm
      · exact ih h

theorem mem_dedupFirst [DecidableEq α] {seen l : List α} {x : α} :
    x ∈ dedupFirst seen l ↔ x ∉ seen ∧ x ∈ l := by
  induction l generalizing seen with
  | nil => simp [dedupFirst]
  | cons y t ih =>
    rw [dedupFirst]
    split
    · rename_i hy
      rw [ih]
      constructor
      · rintro ⟨hns, hm⟩
        exact ⟨hns, List.mem_cons_of_mem _ hm⟩
      · rintro ⟨hns, hm⟩
        rcases List.mem_cons.mp hm with rfl | hm
        · exact absurd hy hns
        · exact ⟨hns, hm⟩
    · rename_i hy
      constructor
      · intro hm
        rcases List.mem_cons.mp hm with rfl | hm
        · exact ⟨hy, List.mem_cons_self _ _⟩
        · obtain ⟨hns, hmt⟩ := ih.mp hm
          exact ⟨fun hs => hns (List.mem_cons_of_mem _ hs), List.mem_cons_of_mem _ hmt⟩
      · rintro ⟨hns, hm⟩
        rcases List.mem_cons.mp hm with rfl | hmt
        · exact List.mem_cons_self _ _
        · by_cases hxy : x = y
          · subst hxy
            exact List.mem_cons_self _ _
          · refine List.mem_cons_of_mem _ (ih.mpr ⟨?_, hmt⟩)
            intro hs
            rcases List.mem_cons.mp hs with h | h
            · exact hxy h
            · exact hns h

theorem nodup_dedupFirst [DecidableEq α] (seen l : List α) :
    (dedupFirst seen l).Nodup := by
  induction l generalizing seen with
  | nil => simp [dedupFirst]
  | cons y t ih =>
    rw [dedupFirst]
    split
    · exact ih seen
    · rw [List.nodup_cons]
      refine ⟨?_, ih (y :: seen)⟩
      intro hmem
      exact (mem_dedupFirst.mp hmem).1 (List.mem_cons_self _ _)

/-- C8 (amended): `_extract_entities` returns, without duplicates,
exactly the capitalized alphanumeric tokens of the text that are not
case-sensitively equal to a stop word and have length at least 3; every
returned token starts with an uppercase letter followed by alphanumeric
characters.  In particular a capitalized variant of a lower-case stop
word ("The") is KEPT, not discarded — see `c8_counterexample`. -/
theorem c8_entities (text : String) :
    (∀ tok, tok ∈ extract_entities text ↔
      tok ∈ entityTokens text ∧ tok ∉ COMMON_WORDS ∧ 3 ≤ tok.length) ∧
    (extract_entities text).Nodup ∧
    (∀ tok ∈ extract_entities text, ∃ c cs, tok.data = c :: cs ∧
      c.isUpper = true ∧ ∀ x ∈ cs, x.isAlphanum = true) := by
  refine ⟨?_, nodup_dedupFirst _ _, ?_⟩
  · intro tok
    unfold extract_entities
    rw [mem_dedupFirst]
    simp only [List.not_mem_nil, not_false_iff, true_and, List.mem_filter,
      Bool.and_eq_true, Bool.not_eq_true', decide_eq_true_eq]
    constructor
    · rintro ⟨hm, hc, hl⟩
      refine ⟨hm, ?_, by omega⟩
      intro hmem
      have helem := List.elem_eq_true_of_mem hmem
      rw [show COMMON_WORDS.contains tok = List.elem tok COMMON_WORDS from rfl] at hc
      rw [helem] at hc
      cases hc
    · rintro ⟨hm, hc, hl⟩
      refine ⟨hm, ?_, by omega⟩
      rw [show COMMON_WORDS.contains tok = List.elem tok COMMON_WORDS from rfl,
        ← Bool.not_eq_true]
      intro hx
      exact hc (List.mem_of_elem_eq_true hx)
  · intro tok htok
    unfold extract_entities at htok
    obtain ⟨hm, _⟩ := (mem_dedupFirst.mp htok).2 |> List.mem_filter.mp
    unfold entityTokens at hm
    obtain ⟨r, hr, rfl⟩ := List.mem_map.mp hm
    obtain ⟨hrw, hfilter⟩ := List.mem_filter.mp hr
    obtain ⟨hne, hchars⟩ := wordRunsAux_chars hrw
    rw [Bool.and_eq_true] at hfilter
    obtain ⟨hhead, hnou⟩ := hfilter
    cases r with
    | nil => exact absurd rfl hne
    | cons c cs =>
      refine ⟨c, cs, rfl, by simpa using hhead, ?_⟩
      intro x hx
      have hw := hchars x (List.mem_cons_of_mem _ hx)
      have hnu : x ≠ '_' := by
        intro heq
        have hmem : '_' ∈ c :: cs := heq ▸ List.mem_cons_of_mem _ hx
        have helem := List.elem_eq_true_of_mem hmem
        rw [show (c :: cs).contains '_' = List.elem '_' (c :: cs) from rfl] at hnou
        rw [helem] at hnou
        exact absurd hnou (by decide)
      rw [isWordChar, Bool.or_eq_true] at hw
      rcases hw with hw | hw
      · exact hw
      · exact absurd (by simpa using hw) hnu

/-- C8 counterexample: the sentence-leading capitalized "The" survives
entity extraction (the stop-word check is case-sensitive: the list holds
"the", not "The"), refuting the claim that a capitalized occurrence of a
stop word is discarded. -/
theorem c8_counterexample :
    "The" ∈ extract_entities "The framework uses Redis for caching" ∧
    "the" ∈ COMMON_WORDS ∧ "The" ∉ COMMON_WORDS := by
  refine ⟨by decide, by decide, by decide⟩



/-! ## Claim C4 -/

theorem pyFold_decomp {f : String → Json → String × Option PyErr}
    (hf : ∀ acc x, f acc x = (acc ++ (f "" x).1, (f "" x).2)) :
    ∀ (acc : String) (xs : List Json),
      pyFold f acc xs = (acc ++ (pyFold f "" xs).1, (pyFold f "" xs).2) := by
  intro acc xs
  induction xs generalizing acc with
  | nil => simp [pyFold]
  | cons x t ih =>
    rcases hx : f "" x with ⟨fx, ex⟩
    have hacc : f acc x = (acc ++ fx, ex) := by rw [hf acc x, hx]
    rw [pyFold, pyFold, hacc, hx]
    cases ex with
    | none =>
      dsimp only
      rw [ih (acc ++ fx), ih fx]
      simp [String.append_assoc]
    | some e => simp

theorem sseChoiceStep_decomp (acc : String) (choice : Json) :
    sseChoiceStep acc choice =
      (acc ++ (sseChoiceStep "" choice).1, (sseChoiceStep "" choice).2) := by
  unfold sseChoiceStep
  cases hd : pyGetD choice "delta" (Json.obj []) with
  | error e => simp [hd]
  | ok delta =>
    cases hg : pyGet delta "content" with
    | error e => simp [hd, hg]
    | ok v =>
      by_cases ht : truthy (v.getD Json.null) = true
      · cases hv : v.getD Json.null <;> simp only [hv] at ht <;>
          simp [hd, hg, ht, hv]
      · simp [hd, hg, ht]

theorem ssePartStep_decomp (acc : String) (part : Json) :
    ssePartStep acc part =
      (acc ++ (ssePartStep "" part).1, (ssePartStep "" part).2) := by
  unfold ssePartStep
  cases hg : pyGet part "text" with
  | error e => simp [hg]
  | ok v =>
    by_cases ht : truthy (v.getD Json.null) = true
    · cases hv : v.getD Json.null <;> simp only [hv] at ht <;>
        simp [hg, ht, hv]
    · simp [hg, ht]

theorem sseCandidateStep_decomp (acc : String) (candidate : Json) :
    sseCandidateStep acc candidate =
      (acc ++ (sseCandidateStep "" candidate).1, (sseCandidateStep "" candidate).2) := by
  unfold sseCandidateStep
  cases hc : pyGetD candidate "content" (Json.obj []) with
  | error e => simp [hc]
  | ok cc =>
    cases hp : pyGetD cc "parts" (Json.arr []) with
    | error e => simp [hc, hp]
    | ok partsV =>
      cases hi : pyIter partsV with
      | error e => simp [hc, hp, hi]
      | ok parts =>
        simp only [hc, hp, hi]
        exact pyFold_decomp ssePartStep_decomp acc parts

theorem sseAnthropicStep_decomp (acc : String) (fs : List (String × Json)) :
    sseAnthropicStep acc fs =
      (acc ++ (sseAnthropicStep "" fs).1, (sseAnthropicStep "" fs).2) := by
  unfold sseAnthropicStep
  by_cases h1 : isStrVal (getEntry fs "type") "content_block_delta" = true
  · cases hd : (getEntry fs "delta").getD (Json.obj []) with
    | obj dfs =>
      by_cases h2 : isStrVal (getEntry dfs "type") "text_delta" = true
      · cases htex : (getEntry dfs "text").getD (Json.str "") <;>
          simp [h1, h2, hd, htex]
      · simp [h1, h2, hd]
    | null => simp [h1, hd]
    | bool b => simp [h1, hd]
    | num m e => simp [h1, hd]
    | str s => simp [h1, hd]
    | arr xs => simp [h1, hd]
  · simp [h1]

theorem sseChoicesStep_decomp (acc : String) (fs : List (String × Json)) :
    sseChoicesStep acc fs =
      (acc ++ (sseChoicesStep "" fs).1, (sseChoicesStep "" fs).2) := by
  unfold sseChoicesStep
  by_cases h : (fs.any fun p => p.1 = "choices") = true
  · cases hi : pyIter ((getEntry fs "choices").getD (Json.arr [])) with
    | error e => simp [h, hi]
    | ok choices =>
      simp only [h, hi, if_true]
      exact pyFold_decomp sseChoiceStep_decomp acc choices
  · simp [h]

theorem sseCandidatesStep_decomp (acc : String) (fs : List (String × Json)) :
    sseCandidatesStep acc fs =
      (acc ++ (sseCandidatesStep "" fs).1, (sseCandidatesStep "" fs).2) := by
  unfold sseCandidatesStep
  by_cases h : (fs.any fun p => p.1 = "candidates") = true
  · cases hi : pyIter ((getEntry fs "candidates").getD (Json.arr [])) with
    | error e => simp [h, hi]
    | ok candidates =>
      simp only [h, hi, if_true]
      exact pyFold_decomp sseCandidateStep_decomp acc candidates
  · simp [h]

theorem ssePayloadStep_decomp (acc : String) (d : Json) :
    ssePayloadStep acc d =
      (acc ++ (ssePayloadStep "" d).1, (ssePayloadStep "" d).2) := by
  cases d with
  | obj fs =>
    unfold ssePayloadStep
    dsimp only
    rcases ha : sseAnthropicStep "" fs with ⟨a1, e1⟩
    have haa : sseAnthropicStep acc fs = (acc ++ a1, e1) := by
      rw [sseAnthropicStep_decomp acc fs, ha]
    rw [haa]
    cases e1 with
    | some e => simp
    | none =>
      dsimp only
      rcases hc : sseChoicesStep "" fs with ⟨c1, e2⟩
      have hca : ∀ b, sseChoicesStep b fs = (b ++ c1, e2) := fun b => by
        rw [sseChoicesStep_decomp b fs, hc]
      rw [hca (acc ++ a1), hca a1]
      cases e2 with
      | some e => simp [String.append_assoc]
      | none =>
        dsimp only
        rcases hd2 : sseCandidatesStep "" fs with ⟨d1, e3⟩
        have hda : ∀ b, sseCandidatesStep b fs = (b ++ d1, e3) := fun b => by
          rw [sseCandidatesStep_decomp b fs, hd2]
        rw [hda (acc ++ a1 ++ c1), hda (a1 ++ c1)]
        simp [String.append_assoc]
  | null => simp [ssePayloadStep]
  | bool b => simp [ssePayloadStep]
  | num m e => simp [ssePayloadStep]
  | str s => simp [ssePayloadStep]
  | arr xs => simp [ssePayloadStep]

theorem sseLineStep_decomp (acc : String) (line : String) :
    sseLineStep acc line =
      (acc ++ (sseLineStep "" line).1, (sseLineStep "" line).2) := by
  unfold sseLineStep
  by_cases h1 : strStartsB (pyStrip line) "data:" = true
  · simp only [h1, Bool.not_true, Bool.false_eq_true, if_false]
    by_cases h2 : pyStrip (strDrop (pyStrip line) 5) = "[DONE]"
    · simp [h2]
    · simp only [h2, if_false]
      cases hj : json_loads (pyStrip (strDrop (pyStrip line) 5)) with
      | none => simp
      | some d => exact ssePayloadStep_decomp acc d
  · simp [h1]


theorem foldl_append_init (l : List String) :
    ∀ s : String, l.foldl (· ++ ·) s = s ++ l.foldl (· ++ ·) "" := by
  induction l with
  | nil => intro s; simp
  | cons x t ih =>
    intro s
    rw [List.foldl_cons, List.foldl_cons, ih (s ++ x), ih ("" ++ x)]
    simp [String.append_assoc]

theorem join_cons (a : String) (l : List String) :
    String.join (a :: l) = a ++ String.join l := by
  show (a :: l).foldl (· ++ ·) "" = a ++ l.foldl (· ++ ·) ""
  rw [List.foldl_cons, foldl_append_init l ("" ++ a)]
  simp

theorem sseLoop_all_ok (lines : List String)
    (h : ∀ line ∈ lines, (sseLineStep "" line).2 = none) :
    ∀ acc : String,
      sseLoop acc lines =
        acc ++ String.join (lines.map fun l => (sseLineStep "" l).1) := by
  induction lines with
  | nil => intro acc; simp [sseLoop, String.join]
  | cons l t ih =>
    intro acc
    rw [sseLoop]
    rcases hx : sseLineStep "" l with ⟨f, e⟩
    have hl : sseLineStep acc l = (acc ++ f, e) := by
      rw [sseLineStep_decomp acc l, hx]
    rw [hl]
    have he : e = none := by
      have hh := h l (List.mem_cons_self _ _)
      rw [hx] at hh
      exact hh
    subst he
    dsimp only
    rw [ih (fun line hm => h line (List.mem_cons_of_mem _ hm)) (acc ++ f)]
    rw [List.map_cons, join_cons]
    simp [String.append_assoc, hx]

/-- C4 (amended): for every streamed body none of whose data payloads
triggers a runtime type error, stream extraction is the separator-free
concatenation, in arrival order, of the per-line fragments; and
unconditionally, a line not beginning with the `data:` marker contributes
nothing, a `[DONE]` payload contributes nothing, and a payload that fails
to decode as JSON is skipped without raising (so it never aborts the
stream).  (A payload that decodes but is ill-typed aborts the remainder —
see `c4_counterexample`.) -/
theorem c4_stream_concat (text : String)
    (h : ∀ line ∈ pySplit text '\n', (sseLineStep "" line).2 = none) :
    parse_sse_content text =
      String.join ((pySplit text '\n').map fun l => (sseLineStep "" l).1) ∧
    (∀ line : String, strStartsB (pyStrip line) "data:" = false →
      sseLineStep "" line = ("", none)) ∧
    (∀ line : String, strStartsB (pyStrip line) "data:" = true →
      pyStrip (strDrop (pyStrip line) 5) = "[DONE]" →
      sseLineStep "" line = ("", none)) ∧
    (∀ line : String, strStartsB (pyStrip line) "data:" = true →
      json_loads (pyStrip (strDrop (pyStrip line) 5)) = none →
      sseLineStep "" line = ("", none)) := by
  refine ⟨?_, ?_, ?_, ?_⟩
  · rw [parse_sse_content, sseLoop_all_ok (pySplit text '\n') h ""]
    simp
  · intro line hnd
    unfold sseLineStep
    simp [hnd]
  · intro line hd hdone
    unfold sseLineStep
    simp [hd, hdone]
  · intro line hd hjson
    unfold sseLineStep
    by_cases hdone : pyStrip (strDrop (pyStrip line) 5) = "[DONE]"
    · simp [hd, hdone]
    · simp [hd, hdone, hjson]

/-- C4 witness: the spec's streaming-reconstruction example — three
well-formed content-delta events carrying "Hel", "lo, ", "world", with an
interleaved malformed line, a bare `[DONE]`, and a non-data line — yields
exactly "Hello, world". -/
theorem c4_stream_concat_witness :
    (∀ line ∈ pySplit ("data: \x7b\"type\":\"content_block_delta\",\"delta\":\x7b\"type\":\"text_delta\",\"text\":\"Hel\"\x7d\x7d\n" ++
        "garbage line\n" ++ "data: not json\n" ++ "data: [DONE]\n" ++
        "data: \x7b\"type\":\"content_block_delta\",\"delta\":\x7b\"type\":\"text_delta\",\"text\":\"lo, \"\x7d\x7d\n" ++
        "data: \x7b\"type\":\"content_block_delta\",\"delta\":\x7b\"type\":\"text_delta\",\"text\":\"world\"\x7d\x7d") '\n',
      (sseLineStep "" line).2 = none) ∧
    parse_sse_content ("data: \x7b\"type\":\"content_block_delta\",\"delta\":\x7b\"type\":\"text_delta\",\"text\":\"Hel\"\x7d\x7d\n" ++
        "garbage line\n" ++ "data: not json\n" ++ "data: [DONE]\n" ++
        "data: \x7b\"type\":\"content_block_delta\",\"delta\":\x7b\"type\":\"text_delta\",\"text\":\"lo, \"\x7d\x7d\n" ++
        "data: \x7b\"type\":\"content_block_delta\",\"delta\":\x7b\"type\":\"text_delta\",\"text\":\"world\"\x7d\x7d") =
      String.join ((pySplit ("data: \x7b\"type\":\"content_block_delta\",\"delta\":\x7b\"type\":\"text_delta\",\"text\":\"Hel\"\x7d\x7d\n" ++
        "garbage line\n" ++ "data: not json\n" ++ "data: [DONE]\n" ++
        "data: \x7b\"type\":\"content_block_delta\",\"delta\":\x7b\"type\":\"text_delta\",\"text\":\"lo, \"\x7d\x7d\n" ++
        "data: \x7b\"type\":\"content_block_delta\",\"delta\":\x7b\"type\":\"text_delta\",\"text\":\"world\"\x7d\x7d") '\n').map
        fun l => (sseLineStep "" l).1) ∧
    parse_sse_content ("data: \x7b\"type\":\"content_block_delta\",\"delta\":\x7b\"type\":\"text_delta\",\"text\":\"Hel\"\x7d\x7d\n" ++
        "garbage line\n" ++ "data: not json\n" ++ "data: [DONE]\n" ++
        "data: \x7b\"type\":\"content_block_delta\",\"delta\":\x7b\"type\":\"text_delta\",\"text\":\"lo, \"\x7d\x7d\n" ++
        "data: \x7b\"type\":\"content_block_delta\",\"delta\":\x7b\"type\":\"text_delta\",\"text\":\"world\"\x7d\x7d") =
      "Hello, world" :=
  ⟨by decide, (c4_stream_concat _ (by decide)).1, by decide⟩

/-- C4 counterexample: a stream whose middle line decodes as JSON but
carries a non-string text (`"text":1`) aborts the remaining lines —
the recognized fragments "Hel" and "lo" would concatenate to "Hello",
but the extractor returns only "Hel". -/
theorem c4_counterexample :
    parse_sse_content ("data: \x7b\"type\":\"content_block_delta\",\"delta\":\x7b\"type\":\"text_delta\",\"text\":\"Hel\"\x7d\x7d\n" ++
        "data: \x7b\"type\":\"content_block_delta\",\"delta\":\x7b\"type\":\"text_delta\",\"text\":1\x7d\x7d\n" ++
        "data: \x7b\"type\":\"content_block_delta\",\"delta\":\x7b\"type\":\"text_delta\",\"text\":\"lo\"\x7d\x7d") = "Hel" ∧
    String.join ((pySplit ("data: \x7b\"type\":\"content_block_delta\",\"delta\":\x7b\"type\":\"text_delta\",\"text\":\"Hel\"\x7d\x7d\n" ++
        "data: \x7b\"type\":\"content_block_delta\",\"delta\":\x7b\"type\":\"text_delta\",\"text\":1\x7d\x7d\n" ++
        "data: \x7b\"type\":\"content_block_delta\",\"delta\":\x7b\"type\":\"text_delta\",\"text\":\"lo\"\x7d\x7d") '\n').map
        fun l => (sseLineStep "" l).1) = "Hello" := by
  refine ⟨by decide, by decide⟩



/-! ## Claim C3 -/

theorem exceptFold_ok {f : String → Json → Except PyErr String}
    {xs : List Json} (hf : ∀ x ∈ xs, ∀ a, ∃ b, f a x = .ok b) :
    ∀ a, ∃ b, exceptFold f a xs = .ok b := by
  induction xs with
  | nil => exact fun a => ⟨a, rfl⟩
  | cons x t ih =>
    intro a
    obtain ⟨b, hb⟩ := hf x (List.mem_cons_self _ _) a
    obtain ⟨c, hc⟩ := ih (fun y hy a' => hf y (List.mem_cons_of_mem _ hy) a') b
    exact ⟨c, by rw [exceptFold, hb]; exact hc⟩

theorem appendText_ok_of_wtTruthyStr {v : Option Json}
    (hw : wtTruthyStr v = true) (ht : truthy (v.getD Json.null) = true)
    (a : String) : ∃ b, appendText a (v.getD Json.null) = .ok b := by
  rw [wtTruthyStr, Bool.or_eq_true] at hw
  rcases hw with hw | hw
  · rw [ht] at hw
    simp at hw
  · cases hv : v.getD Json.null <;> rw [hv] at hw <;> simp at hw
    exact ⟨_, rfl⟩

theorem gacBlockStep_ok {b : Json} (hw : wtBlock b = true) (a : String) :
    ∃ c, gacBlockStep a b = .ok c := by
  cases b with
  | obj bfs =>
    rw [wtBlock] at hw
    rw [Bool.or_eq_true] at hw
    unfold gacBlockStep
    dsimp only
    by_cases h1 : isStrVal (getEntry bfs "type") "text" = true
    · rcases hw with hw | hw
      · rw [h1] at hw
        simp at hw
      · rw [if_pos h1]
        cases hv : (getEntry bfs "text").getD (Json.str "") <;> rw [hv] at hw <;>
          simp at hw
        exact ⟨_, rfl⟩
    · rw [if_neg h1]
      exact ⟨a, rfl⟩
  | str s => exact ⟨_, rfl⟩
  | null => exact ⟨a, rfl⟩
  | bool x => exact ⟨a, rfl⟩
  | num m e => exact ⟨a, rfl⟩
  | arr xs => exact ⟨a, rfl⟩

theorem gacChoiceStep_ok {c : Json} (hw : wtChoice c = true) (a : String) :
    ∃ b, gacChoiceStep a c = .ok b := by
  cases c with
  | obj cfs =>
    rw [wtChoice] at hw
    rw [Bool.and_eq_true] at hw
    obtain ⟨hm, hd⟩ := hw
    unfold gacChoiceStep
    have hmsg : pyGetD (Json.obj cfs) "message" (Json.obj []) =
        .ok ((getEntry cfs "message").getD (Json.obj [])) := rfl
    have hdel : pyGetD (Json.obj cfs) "delta" (Json.obj []) =
        .ok ((getEntry cfs "delta").getD (Json.obj [])) := rfl
    rw [hmsg, hdel]
    cases hmv : (getEntry cfs "message").getD (Json.obj []) <;> rw [hmv] at hm <;>
      simp at hm
    rename_i mfs
    cases hdv : (getEntry cfs "delta").getD (Json.obj []) <;> rw [hdv] at hd <;>
      simp at hd
    rename_i dfs
    dsimp only [pyGet]
    have hw1 : wtTruthyStr (getEntry mfs "content") = true := by simpa using hm
    have hw2 : wtTruthyStr (getEntry dfs "content") = true := by simpa using hd
    by_cases ht : truthy ((getEntry mfs "content").getD Json.null) = true
    · obtain ⟨b1, hb1⟩ := appendText_ok_of_wtTruthyStr hw1 ht a
      rw [if_pos ht, hb1]
      dsimp only
      by_cases ht2 : truthy ((getEntry dfs "content").getD Json.null) = true
      · obtain ⟨b2, hb2⟩ := appendText_ok_of_wtTruthyStr hw2 ht2 b1
        rw [if_pos ht2]
        exact ⟨b2, hb2⟩
      · rw [if_neg ht2]
        exact ⟨b1, rfl⟩
    · rw [if_neg ht]
      dsimp only
      by_cases ht2 : truthy ((getEntry dfs "content").getD Json.null) = true
      · obtain ⟨b2, hb2⟩ := appendText_ok_of_wtTruthyStr hw2 ht2 a
        rw [if_pos ht2]
        exact ⟨b2, hb2⟩
      · rw [if_neg ht2]
        exact ⟨a, rfl⟩
  | null => simp [wtChoice] at hw
  | bool x => simp [wtChoice] at hw
  | num m e => simp [wtChoice] at hw
  | str s => simp [wtChoice] at hw
  | arr xs => simp [wtChoice] at hw

theorem gacTextFieldStep_ok {p : Json} (hw : wtPart p = true) (a : String) :
    ∃ b, gacTextFieldStep a p = .ok b := by
  cases p with
  | obj pfs =>
    rw [wtPart] at hw
    unfold gacTextFieldStep
    dsimp only [pyGet]
    by_cases ht : truthy ((getEntry pfs "text").getD Json.null) = true
    · obtain ⟨b, hb⟩ := appendText_ok_of_wtTruthyStr hw ht a
      rw [if_pos ht]
      exact ⟨b, hb⟩
    · rw [if_neg ht]
      exact ⟨a, rfl⟩
  | null => simp [wtPart] at hw
  | bool x => simp [wtPart] at hw
  | num m e => simp [wtPart] at hw
  | str s => simp [wtPart] at hw
  | arr xs => simp [wtPart] at hw

theorem gacCandidateStep_ok {c : Json} (hw : wtCandidate c = true) (a : String) :
    ∃ b, gacCandidateStep a c = .ok b := by
  cases c with
  | obj cfs =>
    rw [wtCandidate] at hw
    unfold gacCandidateStep
    have hcc : pyGetD (Json.obj cfs) "content" (Json.obj []) =
        .ok ((getEntry cfs "content").getD (Json.obj [])) := rfl
    rw [hcc]
    cases hcv : (getEntry cfs "content").getD (Json.obj []) <;> rw [hcv] at hw <;>
      simp at hw
    rename_i ccfs
    have hpp : pyGetD (Json.obj ccfs) "parts" (Json.arr []) =
        .ok ((getEntry ccfs "parts").getD (Json.arr [])) := rfl
    dsimp only
    rw [hpp]
    cases hpv : (getEntry ccfs "parts").getD (Json.arr []) <;> rw [hpv] at hw <;>
      simp at hw
    rename_i ps
    dsimp only [pyIter]
    exact exceptFold_ok (fun x hx a' => gacTextFieldStep_ok (hw x hx) a') a
  | null => simp [wtCandidate] at hw
  | bool x => simp [wtCandidate] at hw
  | num m e => simp [wtCandidate] at hw
  | str s => simp [wtCandidate] at hw
  | arr xs => simp [wtCandidate] at hw


theorem gacContent_ok (fs : List (String × Json)) (a : String)
    (hw : (match getEntry fs "content" with
           | some (.arr blocks) => blocks.all wtBlock
           | _ => true) = true) :
    ∃ b, gacContent (Json.obj fs) a = .ok b := by
  unfold gacContent
  dsimp only [pyIn]
  by_cases hb : (fs.any fun p => p.1 = "content") = true
  · rw [if_pos hb]
    dsimp only [pyGet]
    cases hv : getEntry fs "content" with
    | none =>
      exact ⟨a, rfl⟩
    | some j =>
      rw [hv] at hw
      cases j with
      | arr blocks =>
        dsimp only [Option.getD]
        exact exceptFold_ok
          (fun x hx a' => gacBlockStep_ok (List.all_eq_true.mp hw x hx) a') a
      | null => exact ⟨a, rfl⟩
      | bool x => exact ⟨a, rfl⟩
      | num m e => exact ⟨a, rfl⟩
      | str s => exact ⟨a, rfl⟩
      | obj gs => exact ⟨a, rfl⟩
  · rw [if_neg hb]
    exact ⟨a, rfl⟩

theorem gacListBranch_ok (fs : List (String × Json)) (k : String)
    (elemOk : Json → Bool) (step : String → Json → Except PyErr String)
    (hstep : ∀ x, elemOk x = true → ∀ a, ∃ b, step a x = .ok b)
    (hw : wtListField fs k elemOk = true) (a : String)
    (branch : Json → String → Except PyErr String)
    (hbranch : ∀ rd acc, branch rd acc =
      (match pyIn rd k with
       | .error e => .error e
       | .ok b =>
         if b then
           match pyGetD rd k (.arr []) with
           | .error e => .error e
           | .ok v =>
             match pyIter v with
             | .error e => .error e
             | .ok xs => exceptFold step acc xs
         else .ok acc)) :
    ∃ b, branch (Json.obj fs) a = .ok b := by
  rw [hbranch]
  dsimp only [pyIn]
  rw [wtListField, Bool.or_eq_true] at hw
  by_cases hb : (fs.any fun p => p.1 = k) = true
  · rw [if_pos hb]
    rcases hw with hw | hw
    · rw [hasKeyJ, hb] at hw
      simp at hw
    · have hget : pyGetD (Json.obj fs) k (Json.arr []) =
          .ok ((getEntry fs k).getD (Json.arr [])) := rfl
      rw [hget]
      cases hv : (getEntry fs k).getD (Json.arr []) <;> rw [hv] at hw <;> simp at hw
      rename_i xs
      dsimp only [pyIter]
      exact exceptFold_ok (fun x hx a' => hstep x (hw x hx) a') a
  · rw [if_neg hb]
    exact ⟨a, rfl⟩

theorem gacText_ok (fs : List (String × Json)) (a : String) :
    ∃ b, gacText (Json.obj fs) a = .ok b := by
  unfold gacText
  dsimp only [pyIn]
  by_cases hb : (fs.any fun p => p.1 = "text") = true
  · rw [if_pos hb]
    dsimp only [pyGet]
    cases hv : (getEntry fs "text").getD Json.null <;> exact ⟨_, rfl⟩
  · rw [if_neg hb]
    exact ⟨a, rfl⟩

theorem gacOutput_ok (fs : List (String × Json)) (a : String) :
    ∃ b, gacOutput (Json.obj fs) a = .ok b := by
  unfold gacOutput
  dsimp only [pyIn]
  by_cases hb : (fs.any fun p => p.1 = "output") = true
  · rw [if_pos hb]
    dsimp only [pyGet]
    cases hv : (getEntry fs "output").getD Json.null <;> exact ⟨_, rfl⟩
  · rw [if_neg hb]
    exact ⟨a, rfl⟩

/-- C3 (amended): on every response body whose present provider fields
carry the documented shapes (`wellTypedResp`), the JSON extractor
`_get_assistant_content` terminates normally with a string.  On other
bodies it can raise — see `c3_counterexample` — contradicting the
unconditional claim; the raised exception is caught by the `response`
handler's blanket `except`.  (The stream extractor is total by its own
internal catch-all; see the C4 theorems for its behaviour.) -/
theorem c3_extraction_total (rd : Json) (hw : wellTypedResp rd = true) :
    ∃ s, get_assistant_content rd = .ok s := by
  cases rd with
  | obj fs =>
    rw [wellTypedResp] at hw
    rw [Bool.and_eq_true, Bool.and_eq_true, Bool.and_eq_true] at hw
    obtain ⟨⟨⟨h1, h2⟩, h3⟩, h4⟩ := hw
    unfold get_assistant_content
    obtain ⟨a1, e1⟩ := gacContent_ok fs "" h1
    rw [e1, gacSeq]
    obtain ⟨a2, e2⟩ := gacListBranch_ok fs "choices" wtChoice gacChoiceStep
      (fun x hx a => gacChoiceStep_ok hx a) h2 a1 gacChoices
      (fun rd acc => by unfold gacChoices; rfl)
    rw [e2, gacSeq]
    obtain ⟨a3, e3⟩ := gacListBranch_ok fs "candidates" wtCandidate gacCandidateStep
      (fun x hx a => gacCandidateStep_ok hx a) h3 a2 gacCandidates
      (fun rd acc => by unfold gacCandidates; rfl)
    rw [e3, gacSeq]
    obtain ⟨a4, e4⟩ := gacText_ok fs a3
    rw [e4, gacSeq]
    obtain ⟨a5, e5⟩ := gacListBranch_ok fs "generations" wtPart gacTextFieldStep
      (fun x hx a => gacTextFieldStep_ok hx a) h4 a4 gacGenerations
      (fun rd acc => by unfold gacGenerations; rfl)
    rw [e5, gacSeq]
    exact gacOutput_ok fs a5
  | null => simp [wellTypedResp] at hw
  | bool x => simp [wellTypedResp] at hw
  | num m e => simp [wellTypedResp] at hw
  | str s => simp [wellTypedResp] at hw
  | arr xs => simp [wellTypedResp] at hw

/-- C3 counterexample: a response body whose Anthropic text block carries
a numeric `text` makes `_get_assistant_content` raise a TypeError
(`content += block.get("text", "") + "\n"` on a non-string), refuting the
claim that extraction never raises on any JSON-decoded body. -/
theorem c3_counterexample :
    get_assistant_content (Json.obj [("content",
        Json.arr [Json.obj [("type", Json.str "text"), ("text", Json.num 5 0)]])]) =
      .error PyErr.typeError := rfl

/-- C3 witness: a well-typed Anthropic-plus-OpenAI response extracts
successfully. -/
theorem c3_extraction_total_witness :
    wellTypedResp (Json.obj [("content",
        Json.arr [Json.obj [("type", Json.str "text"), ("text", Json.str "Hi")]]),
      ("choices", Json.arr [Json.obj []])]) = true ∧
    ∃ s, get_assistant_content (Json.obj [("content",
        Json.arr [Json.obj [("type", Json.str "text"), ("text", Json.str "Hi")]]),
      ("choices", Json.arr [Json.obj []])]) = .ok s :=
  ⟨by decide, c3_extraction_total _ (by decide)⟩



/-! ## Claim C10 -/

/-- C10: whenever the handler would act on empty assistant content — the
body is absent or empty, a non-streaming body fails JSON decoding, the
extractor raises, or the reconstructed content is the empty string — the
response handler writes no conversation, extraction or link record (the
database is untouched), while the matching pending-exchange entry is
still consumed. -/
theorem c10_empty_content_frame (st : ProxyState) (flow : ResponseFlow)
    (extractDecisions : String → List Extraction) (pid : Int)
    (isDup : String → Bool) (nowIso : String) (info : PendingInfo)
    (hl : lookupPending st.pending flow.id = some info)
    (hc : responseExtractedContent flow = none ∨
          responseExtractedContent flow = some "") :
    respond st flow extractDecisions pid isDup nowIso =
      { pending := erasePending st.pending flow.id, db := st.db } := by
  unfold respond
  rw [hl]
  unfold responseExtractedContent at hc
  cases hcont : flow.content with
  | none => rfl
  | some body =>
    rw [hcont] at hc
    dsimp only at hc
    dsimp only
    by_cases hb : body = ""
    · rw [if_pos hb]
    · rw [if_neg hb]
      rw [if_neg hb] at hc
      by_cases hs : is_streaming_response flow.contentType = true
      · rw [if_pos hs]
        rw [if_pos hs] at hc
        rcases hc with hc | hc
        · simp at hc
        · have hac : parse_sse_content body = "" := by
            simpa using hc
          unfold finishResponse
          rw [if_pos hac]
      · rw [if_neg hs]
        rw [if_neg hs] at hc
        cases hj : json_loads body with
        | none => rfl
        | some rd =>
          rw [hj] at hc
          dsimp only at hc
          dsimp only
          cases hg : get_assistant_content rd with
          | error e => rfl
          | ok ac =>
            rw [hg] at hc
            rcases hc with hc | hc
            · simp [Except.toOption] at hc
            · have hac : ac = "" := by
                simpa [Except.toOption] using hc
              subst hac
              unfold finishResponse
              simp

/-- C10 witness: a pending exchange whose response body is not valid
JSON — the pending entry is consumed and the database is unchanged. -/
theorem c10_empty_content_frame_witness :
    lookupPending [("f1", ⟨"api.anthropic.com", "t0", none⟩)] "f1" =
      some ⟨"api.anthropic.com", "t0", none⟩ ∧
    (responseExtractedContent ⟨"f1", "application/json", some "not json"⟩ = none ∨
     responseExtractedContent ⟨"f1", "application/json", some "not json"⟩ = some "") ∧
    respond ⟨[("f1", ⟨"api.anthropic.com", "t0", none⟩)], ⟨[], [], [], [], 0, 0⟩⟩
        ⟨"f1", "application/json", some "not json"⟩ (fun _ => []) 0 (fun _ => false) "now" =
      { pending := erasePending [("f1", ⟨"api.anthropic.com", "t0", none⟩)] "f1",
        db := ⟨[], [], [], [], 0, 0⟩ } :=
  ⟨rfl, Or.inl rfl,
    c10_empty_content_frame _ _ (fun _ => []) 0 (fun _ => false) "now" _ rfl (Or.inl rfl)⟩



/-! ## Claim C1 -/

theorem countJ_obj (ctx : String) (fs : List (String × Json)) :
    countJ ctx (Json.obj fs) = countFields ctx fs := rfl

theorem countJ_arr (ctx : String) (xs : List Json) :
    countJ ctx (Json.arr xs) = countList ctx xs := rfl

theorem countJ_str (ctx s : String) :
    countJ ctx (Json.str s) = if strContainsB s ctx = true then 1 else 0 := by
  unfold countJ
  rw [Json.leafStrings]
  by_cases h : strContainsB s ctx = true <;> simp [h]

theorem countJ_null (ctx : String) : countJ ctx Json.null = 0 := rfl

theorem countFields_nil (ctx : String) : countFields ctx [] = 0 := rfl

theorem countFields_cons (ctx : String) (k : String) (v : Json)
    (t : List (String × Json)) :
    countFields ctx ((k, v) :: t) = countJ ctx v + countFields ctx t := by
  unfold countFields countJ
  rw [leafStringsFields]
  simp [List.filter_append]

theorem countList_nil (ctx : String) : countList ctx [] = 0 := rfl

theorem countList_cons (ctx : String) (x : Json) (t : List Json) :
    countList ctx (x :: t) = countJ ctx x + countList ctx t := by
  unfold countList countJ
  rw [leafStringsList]
  simp [List.filter_append]

theorem countJ_ctx_prefix (ctx rest : String) :
    countJ ctx (Json.str (ctx ++ rest)) = 1 := by
  rw [countJ_str, if_pos (strContainsB_of_startsB (strStartsB_append ctx rest))]

theorem getEntry_setEntry_self (fs : List (String × Json)) (k : String) (v : Json) :
    getEntry (setEntry fs k v) k = some v := by
  induction fs with
  | nil => simp [setEntry, getEntry]
  | cons p t ih =>
    obtain ⟨k₁, w⟩ := p
    rw [setEntry]
    by_cases h : k₁ = k
    · rw [if_pos h, getEntry, if_pos h]
    · rw [if_neg h, getEntry, if_neg h]
      exact ih

theorem getEntry_setEntry_ne (fs : List (String × Json)) (k k' : String)
    (v : Json) (h : k' ≠ k) :
    getEntry (setEntry fs k v) k' = getEntry fs k' := by
  induction fs with
  | nil =>
    simp only [setEntry, getEntry]
    rw [if_neg (fun he : k = k' => h (he.symm))]
  | cons p t ih =>
    obtain ⟨k₁, w⟩ := p
    rw [setEntry]
    by_cases h₁ : k₁ = k
    · have hne : ¬k₁ = k' := fun he => h (he ▸ h₁ ▸ rfl)
      rw [if_pos h₁, getEntry, getEntry, if_neg hne, if_neg hne]
    · rw [if_neg h₁, getEntry, getEntry]
      by_cases h₂ : k₁ = k'
      · rw [if_pos h₂, if_pos h₂]
      · rw [if_neg h₂, if_neg h₂]
        exact ih

theorem countFields_setEntry (ctx : String) (fs : List (String × Json))
    (k : String) (v : Json) :
    countFields ctx (setEntry fs k v) +
      countJ ctx ((getEntry fs k).getD Json.null) =
    countFields ctx fs + countJ ctx v := by
  induction fs with
  | nil =>
    simp [setEntry, getEntry, countFields_cons, countFields_nil, countJ_null]
  | cons p t ih =>
    obtain ⟨k₁, w⟩ := p
    rw [setEntry, getEntry]
    by_cases h : k₁ = k
    · rw [if_pos h, if_pos h, countFields_cons, countFields_cons]
      dsimp only [Option.getD]
      omega
    · rw [if_neg h, if_neg h, countFields_cons, countFields_cons]
      omega

theorem countJ_getEntry_le (ctx : String) (fs : List (String × Json))
    (k : String) :
    countJ ctx ((getEntry fs k).getD Json.null) ≤ countFields ctx fs := by
  induction fs with
  | nil => simp [getEntry, countFields_nil, countJ_null]
  | cons p t ih =>
    obtain ⟨k₁, w⟩ := p
    rw [getEntry, countFields_cons]
    by_cases h : k₁ = k
    · rw [if_pos h]
      dsimp only [Option.getD]
      omega
    · rw [if_neg h]
      omega

theorem countJ_getEntry_eq_zero {ctx : String} {fs : List (String × Json)}
    (h0 : countFields ctx fs = 0) (k : String) :
    countJ ctx ((getEntry fs k).getD Json.null) = 0 :=
  Nat.le_zero.mp (h0 ▸ countJ_getEntry_le ctx fs k)


theorem getEntry_none_of_hasKey_false {fs : List (String × Json)} {k : String}
    (h : hasKeyJ fs k = false) : getEntry fs k = none := by
  induction fs with
  | nil => rfl
  | cons p t ih =>
    obtain ⟨k₁, w⟩ := p
    rw [hasKeyJ, List.any_cons, Bool.or_eq_false_iff] at h
    rw [getEntry, if_neg (by simpa using h.1)]
    exact ih h.2

theorem getD_arr_eq_cons {fs : List (String × Json)} {k : String}
    {m : Json} {rest : List Json}
    (h : (getEntry fs k).getD (Json.arr []) = Json.arr (m :: rest)) :
    getEntry fs k = some (Json.arr (m :: rest)) := by
  cases hv : getEntry fs k with
  | none =>
    rw [hv] at h
    simp at h
  | some v =>
    rw [hv] at h
    dsimp only [Option.getD] at h
    rw [h]

/-- The shared shape of the `system` and `preamble` strategies: prepend
`ctx ++ "\n\n"` to the existing string value, or set the field to `ctx`
when absent. -/
theorem prependField_spec {ctx key : String} {fs fs' : List (String × Json)}
    (h : (if hasKeyJ fs key then
            match getEntry fs key with
            | some (Json.str s) =>
              Except.ok (setEntry fs key (Json.str (ctx ++ "\n\n" ++ s)))
            | _ => (Except.error PyErr.typeError : Except PyErr (List (String × Json)))
          else Except.ok (setEntry fs key (Json.str ctx))) = Except.ok fs')
    (h0 : countJ ctx ((getEntry fs key).getD Json.null) = 0) :
    countFields ctx fs' = countFields ctx fs + 1 ∧
    (∃ s, getEntry fs' key = some (Json.str s) ∧ strStartsB s ctx = true) ∧
    (∀ k, k ≠ key → getEntry fs' k = getEntry fs k) := by
  by_cases hk : hasKeyJ fs key = true
  · rw [if_pos hk] at h
    cases hv : getEntry fs key with
    | none =>
      try rw [hv] at h
      simp at h
    | some j =>
      try rw [hv] at h
      cases j with
      | str s =>
        dsimp only at h
        have hfs' : fs' = setEntry fs key (Json.str (ctx ++ "\n\n" ++ s)) := by
          cases h
          rfl
        subst hfs'
        have hcount := countFields_setEntry ctx fs key (Json.str (ctx ++ "\n\n" ++ s))
        rw [hv] at hcount
        dsimp only [Option.getD] at hcount
        rw [hv] at h0
        dsimp only [Option.getD] at h0
        have hnew : countJ ctx (Json.str (ctx ++ "\n\n" ++ s)) = 1 := by
          rw [String.append_assoc]
          exact countJ_ctx_prefix ctx _
        refine ⟨by omega, ⟨ctx ++ "\n\n" ++ s, getEntry_setEntry_self fs key _, ?_⟩,
          fun k hkne => getEntry_setEntry_ne fs key k _ hkne⟩
        rw [String.append_assoc]
        exact strStartsB_append ctx _
      | null => simp at h
      | bool x => simp at h
      | num m e => simp at h
      | arr xs => simp at h
      | obj gs => simp at h
  · rw [if_neg hk] at h
    have hfs' : fs' = setEntry fs key (Json.str ctx) := by
      cases h
      rfl
    subst hfs'
    have hv := getEntry_none_of_hasKey_false (Bool.not_eq_true _ ▸ hk)
    have hcount := countFields_setEntry ctx fs key (Json.str ctx)
    rw [hv] at hcount
    dsimp only [Option.getD] at hcount
    rw [countJ_null, countJ_str,
      if_pos (strContainsB_of_startsB (strStartsB_refl ctx))] at hcount
    exact ⟨by omega, ⟨ctx, getEntry_setEntry_self fs key _, strStartsB_refl ctx⟩,
      fun k hkne => getEntry_setEntry_ne fs key k _ hkne⟩

theorem injectSystemField_spec {ctx : String} {fs fs' : List (String × Json)}
    (h : injectSystemField ctx fs = .ok fs')
    (h0 : countJ ctx ((getEntry fs "system").getD Json.null) = 0) :
    countFields ctx fs' = countFields ctx fs + 1 ∧
    (∃ s, getEntry fs' "system" = some (Json.str s) ∧ strStartsB s ctx = true) ∧
    (∀ k, k ≠ "system" → getEntry fs' k = getEntry fs k) :=
  prependField_spec h h0

theorem injectCohere_spec {ctx : String} {fs fs' : List (String × Json)}
    (h : injectCohere ctx fs = .ok fs')
    (h0 : countJ ctx ((getEntry fs "preamble").getD Json.null) = 0) :
    countFields ctx fs' = countFields ctx fs + 1 ∧
    (∃ s, getEntry fs' "preamble" = some (Json.str s) ∧ strStartsB s ctx = true) ∧
    (∀ k, k ≠ "preamble" → getEntry fs' k = getEntry fs k) :=
  prependField_spec h h0


theorem countJ_freshSystemMessage {ctx : String}
    (hsys : strContainsB "system" ctx = false) :
    countJ ctx (freshSystemMessage ctx) = 1 := by
  unfold freshSystemMessage
  rw [countJ_obj, countFields_cons, countFields_cons, countFields_nil,
    countJ_str, countJ_str, if_neg (by simp [hsys]),
    if_pos (strContainsB_of_startsB (strStartsB_refl ctx))]

theorem countJ_freshSystemInstruction (ctx : String) :
    countJ ctx (freshSystemInstruction ctx) = 1 := by
  unfold freshSystemInstruction
  rw [countJ_obj, countFields_cons, countFields_nil, countJ_arr,
    countList_cons, countList_nil, countJ_obj, countFields_cons,
    countFields_nil, countJ_str,
    if_pos (strContainsB_of_startsB (strStartsB_refl ctx))]

theorem injectMessages_spec {ctx : String} {fs fs' : List (String × Json)}
    (h : injectMessages ctx fs = .ok fs')
    (h0 : countFields ctx fs = 0)
    (hsys : strContainsB "system" ctx = false) :
    countFields ctx fs' = countFields ctx fs + 1 ∧
    (∃ mfs rest s,
      getEntry fs' "messages" = some (Json.arr (Json.obj mfs :: rest)) ∧
      isStrVal (getEntry mfs "role") "system" = true ∧
      getEntry mfs "content" = some (Json.str s) ∧ strStartsB s ctx = true) ∧
    (∀ k, k ≠ "messages" → getEntry fs' k = getEntry fs k) := by
  have hz := countJ_getEntry_eq_zero h0 "messages"
  have hfresh := countJ_freshSystemMessage hsys
  unfold injectMessages at h
  cases hm : (getEntry fs "messages").getD (Json.arr []) with
  | arr xs =>
    rw [hm] at h
    cases xs with
    | nil =>
      dsimp only at h
      have hfs' : fs' = setEntry fs "messages" (Json.arr [freshSystemMessage ctx]) := by
        cases h
        rfl
      subst hfs'
      have hcount := countFields_setEntry ctx fs "messages"
        (Json.arr [freshSystemMessage ctx])
      have hval : countJ ctx (Json.arr [freshSystemMessage ctx]) = 1 := by
        rw [countJ_arr, countList_cons, countList_nil, hfresh]
      refine ⟨by omega, ⟨[("role", Json.str "system"), ("content", Json.str ctx)],
        [], ctx, getEntry_setEntry_self fs "messages" _, rfl, rfl, strStartsB_refl ctx⟩,
        fun k hkne => getEntry_setEntry_ne fs "messages" k _ hkne⟩
    | cons m rest =>
      have hme : getEntry fs "messages" = some (Json.arr (m :: rest)) :=
        getD_arr_eq_cons hm
      have hlist : countJ ctx m + countList ctx rest = 0 := by
        have := hz
        rw [hme] at this
        dsimp only [Option.getD] at this
        rw [countJ_arr, countList_cons] at this
        omega
      cases m with
      | obj mfs =>
        dsimp only at h
        by_cases hrole : isStrVal (getEntry mfs "role") "system" = true
        · rw [if_pos hrole] at h
          cases hcv : getEntry mfs "content" with
          | none =>
            try rw [hcv] at h
            simp at h
          | some j =>
            try rw [hcv] at h
            cases j with
            | str s₀ =>
              dsimp only at h
              have hfs' : fs' = setEntry fs "messages"
                  (Json.arr (Json.obj (setEntry mfs "content"
                    (Json.str (ctx ++ "\n\n" ++ s₀))) :: rest)) := by
                cases h
                rfl
              subst hfs'
              have hmfs : countFields ctx mfs = 0 := by
                have := hlist
                rw [countJ_obj] at this
                omega
              have hs₀ : countJ ctx (Json.str s₀) = 0 := by
                have hle := countJ_getEntry_le ctx mfs "content"
                rw [hcv] at hle
                dsimp only [Option.getD] at hle
                omega
              have hinner := countFields_setEntry ctx mfs "content"
                (Json.str (ctx ++ "\n\n" ++ s₀))
              rw [hcv] at hinner
              dsimp only [Option.getD] at hinner
              have hnewleaf : countJ ctx (Json.str (ctx ++ "\n\n" ++ s₀)) = 1 := by
                rw [String.append_assoc]
                exact countJ_ctx_prefix ctx _
              have hcount := countFields_setEntry ctx fs "messages"
                (Json.arr (Json.obj (setEntry mfs "content"
                  (Json.str (ctx ++ "\n\n" ++ s₀))) :: rest))
              rw [hme] at hcount
              dsimp only [Option.getD] at hcount
              rw [countJ_arr, countList_cons, countJ_arr, countList_cons,
                countJ_obj, countJ_obj] at hcount
              refine ⟨by omega,
                ⟨setEntry mfs "content" (Json.str (ctx ++ "\n\n" ++ s₀)), rest,
                  ctx ++ "\n\n" ++ s₀, getEntry_setEntry_self fs "messages" _, ?_,
                  getEntry_setEntry_self mfs "content" _, ?_⟩,
                fun k hkne => getEntry_setEntry_ne fs "messages" k _ hkne⟩
              · rw [getEntry_setEntry_ne mfs "content" "role" _ (by decide)]
                exact hrole
              · rw [String.append_assoc]
                exact strStartsB_append ctx _
            | null => simp at h
            | bool x => simp at h
            | num mm ee => simp at h
            | arr ys => simp at h
            | obj gs => simp at h
        · rw [if_neg hrole] at h
          have hfs' : fs' = setEntry fs "messages"
              (Json.arr (freshSystemMessage ctx :: Json.obj mfs :: rest)) := by
            cases h
            rfl
          subst hfs'
          have hcount := countFields_setEntry ctx fs "messages"
            (Json.arr (freshSystemMessage ctx :: Json.obj mfs :: rest))
          rw [hme] at hcount
          dsimp only [Option.getD] at hcount
          rw [countJ_arr, countList_cons, countJ_arr, countList_cons,
            countList_cons, hfresh] at hcount
          refine ⟨by omega, ⟨[("role", Json.str "system"), ("content", Json.str ctx)],
            Json.obj mfs :: rest, ctx, getEntry_setEntry_self fs "messages" _,
            rfl, rfl, strStartsB_refl ctx⟩,
            fun k hkne => getEntry_setEntry_ne fs "messages" k _ hkne⟩
      | null => simp at h
      | bool x => simp at h
      | num mm ee => simp at h
      | str s => simp at h
      | arr ys => simp at h
  | null => rw [hm] at h; simp at h
  | bool x => rw [hm] at h; simp at h
  | num mm ee => rw [hm] at h; simp at h
  | str s => rw [hm] at h; simp at h
  | obj gs => rw [hm] at h; simp at h


theorem injectGemini_fresh_spec {ctx : String} {fs : List (String × Json)}
    (h0 : countJ ctx ((getEntry fs "system_instruction").getD Json.null) = 0) :
    countFields ctx (setEntry fs "system_instruction" (freshSystemInstruction ctx)) =
      countFields ctx fs + 1 ∧
    (∃ sifs s rest,
      getEntry (setEntry fs "system_instruction" (freshSystemInstruction ctx))
          "system_instruction" = some (Json.obj sifs) ∧
      getEntry sifs "parts" =
        some (Json.arr (Json.obj [("text", Json.str s)] :: rest)) ∧
      strStartsB s ctx = true) ∧
    (∀ k, k ≠ "system_instruction" →
      getEntry (setEntry fs "system_instruction" (freshSystemInstruction ctx)) k =
        getEntry fs k) := by
  have hcount := countFields_setEntry ctx fs "system_instruction"
    (freshSystemInstruction ctx)
  rw [countJ_freshSystemInstruction] at hcount
  refine ⟨by omega,
    ⟨[("parts", Json.arr [Json.obj [("text", Json.str ctx)]])], ctx, [],
      getEntry_setEntry_self fs "system_instruction" _, rfl, strStartsB_refl ctx⟩,
    fun k hkne => getEntry_setEntry_ne fs "system_instruction" k _ hkne⟩

theorem injectGemini_spec {ctx : String} {fs fs' : List (String × Json)}
    (h : injectGemini ctx fs = .ok fs')
    (h0 : countJ ctx ((getEntry fs "system_instruction").getD Json.null) = 0) :
    countFields ctx fs' = countFields ctx fs + 1 ∧
    (∃ sifs s rest,
      getEntry fs' "system_instruction" = some (Json.obj sifs) ∧
      getEntry sifs "parts" =
        some (Json.arr (Json.obj [("text", Json.str s)] :: rest)) ∧
      strStartsB s ctx = true) ∧
    (∀ k, k ≠ "system_instruction" → getEntry fs' k = getEntry fs k) := by
  unfold injectGemini at h
  by_cases hk : hasKeyJ fs "system_instruction" = true
  · rw [if_pos hk] at h
    cases hv : getEntry fs "system_instruction" with
    | none =>
      try rw [hv] at h
      dsimp only at h
      have hfs' : fs' = setEntry fs "system_instruction" (freshSystemInstruction ctx) := by
        cases h
        rfl
      subst hfs'
      exact injectGemini_fresh_spec h0
    | some j =>
      try rw [hv] at h
      cases j with
      | obj efs =>
        dsimp only at h
        have hefs : countFields ctx efs = 0 := by
          rw [hv] at h0
          dsimp only [Option.getD] at h0
          rw [countJ_obj] at h0
          exact h0
        by_cases hp : hasKeyJ efs "parts" = true
        · rw [if_pos hp] at h
          cases hpv : getEntry efs "parts" with
          | none =>
            try rw [hpv] at h
            simp at h
          | some pj =>
            try rw [hpv] at h
            cases pj with
            | arr parts =>
              dsimp only at h
              have hfs' : fs' = setEntry fs "system_instruction"
                  (Json.obj (setEntry efs "parts"
                    (Json.arr (Json.obj [("text", Json.str (ctx ++ "\n\n"))] :: parts)))) := by
                cases h
                rfl
              subst hfs'
              have hparts : countList ctx parts = 0 := by
                have hle := countJ_getEntry_le ctx efs "parts"
                rw [hpv] at hle
                dsimp only [Option.getD] at hle
                rw [countJ_arr] at hle
                omega
              have hnewpart : countJ ctx (Json.obj [("text", Json.str (ctx ++ "\n\n"))]) = 1 := by
                rw [countJ_obj, countFields_cons, countFields_nil, countJ_ctx_prefix]
              have hinner := countFields_setEntry ctx efs "parts"
                (Json.arr (Json.obj [("text", Json.str (ctx ++ "\n\n"))] :: parts))
              rw [hpv] at hinner
              dsimp only [Option.getD] at hinner
              rw [countJ_arr, countJ_arr, countList_cons, hnewpart] at hinner
              have hcount := countFields_setEntry ctx fs "system_instruction"
                (Json.obj (setEntry efs "parts"
                  (Json.arr (Json.obj [("text", Json.str (ctx ++ "\n\n"))] :: parts))))
              rw [hv] at hcount
              dsimp only [Option.getD] at hcount
              rw [countJ_obj, countJ_obj] at hcount
              refine ⟨by omega,
                ⟨setEntry efs "parts"
                    (Json.arr (Json.obj [("text", Json.str (ctx ++ "\n\n"))] :: parts)),
                  ctx ++ "\n\n", parts,
                  getEntry_setEntry_self fs "system_instruction" _,
                  getEntry_setEntry_self efs "parts" _,
                  strStartsB_append ctx "\n\n"⟩,
                fun k hkne => getEntry_setEntry_ne fs "system_instruction" k _ hkne⟩
            | null => simp at h
            | bool x => simp at h
            | num mm ee => simp at h
            | str s => simp at h
            | obj gs => simp at h
        · rw [if_neg hp] at h
          have hfs' : fs' = setEntry fs "system_instruction" (freshSystemInstruction ctx) := by
            cases h
            rfl
          subst hfs'
          exact injectGemini_fresh_spec h0
      | null =>
        dsimp only at h
        have hfs' : fs' = setEntry fs "system_instruction" (freshSystemInstruction ctx) := by
          cases h
          rfl
        subst hfs'
        exact injectGemini_fresh_spec h0
      | bool x =>
        dsimp only at h
        have hfs' : fs' = setEntry fs "system_instruction" (freshSystemInstruction ctx) := by
          cases h
          rfl
        subst hfs'
        exact injectGemini_fresh_spec h0
      | num mm ee =>
        dsimp only at h
        have hfs' : fs' = setEntry fs "system_instruction" (freshSystemInstruction ctx) := by
          cases h
          rfl
        subst hfs'
        exact injectGemini_fresh_spec h0
      | str s =>
        dsimp only at h
        have hfs' : fs' = setEntry fs "system_instruction" (freshSystemInstruction ctx) := by
          cases h
          rfl
        subst hfs'
        exact injectGemini_fresh_spec h0
      | arr ys =>
        dsimp only at h
        have hfs' : fs' = setEntry fs "system_instruction" (freshSystemInstruction ctx) := by
          cases h
          rfl
        subst hfs'
        exact injectGemini_fresh_spec h0
  · rw [if_neg hk] at h
    have hfs' : fs' = setEntry fs "system_instruction" (freshSystemInstruction ctx) := by
      cases h
      rfl
    subst hfs'
    exact injectGemini_fresh_spec h0


theorem gemini_cohere_steps {host ctx : String} {fs₁ : List (String × Json)}
    {inj₁ : Bool} {d' : Json} {inj : Bool}
    (hz_si : countJ ctx ((getEntry fs₁ "system_instruction").getD Json.null) = 0)
    (hz_pre : countJ ctx ((getEntry fs₁ "preamble").getD Json.null) = 0)
    (hok : (match (if strContainsB (pyLower host) "generativelanguage.googleapis" then
                     (injectGemini ctx fs₁).map (fun fs => (fs, true))
                   else .ok (fs₁, inj₁)) with
            | .error e => .error e
            | .ok (fs₂, inj₂) =>
              (match (if strContainsB (pyLower host) "cohere" then
                        (injectCohere ctx fs₂).map (fun fs => (fs, true))
                      else .ok (fs₂, inj₂)) with
               | .error e => .error e
               | .ok (fs₃, inj₃) => .ok (Json.obj fs₃, inj₃))) =
      Except.ok (d', inj)) :
    ∃ fs₃, d' = Json.obj fs₃ ∧
      countFields ctx fs₃ = countFields ctx fs₁ +
        (if strContainsB (pyLower host) "generativelanguage.googleapis" = true then 1 else 0) +
        (if strContainsB (pyLower host) "cohere" = true then 1 else 0) ∧
      inj = (inj₁ || strContainsB (pyLower host) "generativelanguage.googleapis" ||
             strContainsB (pyLower host) "cohere") ∧
      (∀ k, k ≠ "system_instruction" → k ≠ "preamble" →
        getEntry fs₃ k = getEntry fs₁ k) ∧
      (strContainsB (pyLower host) "generativelanguage.googleapis" = true →
        ∃ sifs s rest, getEntry fs₃ "system_instruction" = some (Json.obj sifs) ∧
          getEntry sifs "parts" =
            some (Json.arr (Json.obj [("text", Json.str s)] :: rest)) ∧
          strStartsB s ctx = true) ∧
      (strContainsB (pyLower host) "cohere" = true →
        ∃ s, getEntry fs₃ "preamble" = some (Json.str s) ∧
          strStartsB s ctx = true) := by
  by_cases hC : strContainsB (pyLower host) "generativelanguage.googleapis" = true
  · rw [if_pos hC] at hok
    cases hr2 : injectGemini ctx fs₁ with
    | error e =>
      rw [hr2] at hok
      simp [Except.map] at hok
    | ok fs₂ =>
      rw [hr2] at hok
      dsimp only [Except.map] at hok
      obtain ⟨hcnt₂, hCprop, hframe₂⟩ := injectGemini_spec hr2 hz_si
      by_cases hD : strContainsB (pyLower host) "cohere" = true
      · rw [if_pos hD] at hok
        cases hr3 : injectCohere ctx fs₂ with
        | error e =>
          rw [hr3] at hok
          simp [Except.map] at hok
        | ok fs₃ =>
          rw [hr3] at hok
          dsimp only [Except.map] at hok
          have hz_pre₂ : countJ ctx ((getEntry fs₂ "preamble").getD Json.null) = 0 := by
            rw [hframe₂ "preamble" (by decide)]
            exact hz_pre
          obtain ⟨hcnt₃, hDprop, hframe₃⟩ := injectCohere_spec hr3 hz_pre₂
          have hd : d' = Json.obj fs₃ ∧ inj = true := by
            cases hok
            exact ⟨rfl, rfl⟩
          obtain ⟨hd', hinj⟩ := hd
          refine ⟨fs₃, hd', ?_, ?_, ?_, ?_, ?_⟩
          · rw [if_pos hC, if_pos hD]
            omega
          · rw [hinj, hC, hD]
            simp
          · intro k hk1 hk2
            rw [hframe₃ k hk2, hframe₂ k hk1]
          · intro _
            obtain ⟨sifs, s, rest, hget, hparts, hst⟩ := hCprop
            exact ⟨sifs, s, rest, (hframe₃ "system_instruction" (by decide)) ▸ hget,
              hparts, hst⟩
          · intro _
            exact hDprop
      · rw [if_neg hD] at hok
        have hd : d' = Json.obj fs₂ ∧ inj = true := by
          cases hok
          exact ⟨rfl, rfl⟩
        obtain ⟨hd', hinj⟩ := hd
        refine ⟨fs₂, hd', ?_, ?_, ?_, ?_, ?_⟩
        · rw [if_pos hC, if_neg hD]
          omega
        · rw [hinj, hC]
          simp
        · intro k hk1 _
          exact hframe₂ k hk1
        · intro _
          exact hCprop
        · intro hDt
          exact absurd hDt hD
  · rw [if_neg hC] at hok
    dsimp only at hok
    by_cases hD : strContainsB (pyLower host) "cohere" = true
    · rw [if_pos hD] at hok
      cases hr3 : injectCohere ctx fs₁ with
      | error e =>
        rw [hr3] at hok
        simp [Except.map] at hok
      | ok fs₃ =>
        rw [hr3] at hok
        dsimp only [Except.map] at hok
        obtain ⟨hcnt₃, hDprop, hframe₃⟩ := injectCohere_spec hr3 hz_pre
        have hd : d' = Json.obj fs₃ ∧ inj = true := by
          cases hok
          exact ⟨rfl, rfl⟩
        obtain ⟨hd', hinj⟩ := hd
        refine ⟨fs₃, hd', ?_, ?_, ?_, ?_, ?_⟩
        · rw [if_neg hC, if_pos hD]
          omega
        · rw [hinj, hD]
          simp
        · intro k _ hk2
          exact hframe₃ k hk2
        · intro hCt
          exact absurd hCt hC
        · intro _
          exact hDprop
    · rw [if_neg hD] at hok
      have hd : d' = Json.obj fs₁ ∧ inj = inj₁ := by
        cases hok
        exact ⟨rfl, rfl⟩
      obtain ⟨hd', hinj⟩ := hd
      refine ⟨fs₁, hd', ?_, ?_, fun k _ _ => rfl, ?_, ?_⟩
      · rw [if_neg hC, if_neg hD]
        omega
      · rw [hinj]
        rw [Bool.not_eq_true] at hC hD
        rw [hC, hD]
        simp
      · intro hCt
        exact absurd hCt hC
      · intro hDt
        exact absurd hDt hD


/-- C1 (corrected): for a parseable object body and a non-empty context that is
clean (the body does not already contain it, and it does not contain the word
"system"), a successful run of `inject_context` plants the context once per
FIRED strategy (anthropic system field; generic messages list; gemini
system_instruction; cohere preamble), so the number of occurrences equals the
number of fired strategies and can exceed one (lines 487-533 are independent
conditionals, not an exclusive choice); each fired strategy leaves the context
at the front of its designated field, and an empty context always leaves the
forwarded body unchanged. -/
theorem c1_injection_amended (host ctx : String) (fs₀ : List (String × Json))
    (d' : Json) (inj : Bool)
    (hctx : ctx ≠ "")
    (hclean : countJ ctx (Json.obj fs₀) = 0)
    (hsys : strContainsB "system" ctx = false)
    (hok : inject_context host ctx (Json.obj fs₀) = .ok (d', inj)) :
    (∀ data, newRequestBody host "" data = data) ∧
    countJ ctx d' =
      ((if (strContainsB (pyLower host) "anthropic" && hasKeyJ fs₀ "messages") = true
          then 1 else 0) +
       (if (!(strContainsB (pyLower host) "anthropic" && hasKeyJ fs₀ "messages") &&
            hasKeyJ fs₀ "messages") = true then 1 else 0) +
       (if strContainsB (pyLower host) "generativelanguage.googleapis" = true
          then 1 else 0) +
       (if strContainsB (pyLower host) "cohere" = true then 1 else 0)) ∧
    inj = (hasKeyJ fs₀ "messages" ||
           strContainsB (pyLower host) "generativelanguage.googleapis" ||
           strContainsB (pyLower host) "cohere") ∧
    ∃ fs₃, d' = Json.obj fs₃ ∧
      ((strContainsB (pyLower host) "anthropic" && hasKeyJ fs₀ "messages") = true →
        ∃ s, getEntry fs₃ "system" = some (Json.str s) ∧ strStartsB s ctx = true) ∧
      ((!(strContainsB (pyLower host) "anthropic" && hasKeyJ fs₀ "messages") &&
        hasKeyJ fs₀ "messages") = true →
        ∃ mfs rest s,
          getEntry fs₃ "messages" = some (Json.arr (Json.obj mfs :: rest)) ∧
          isStrVal (getEntry mfs "role") "system" = true ∧
          getEntry mfs "content" = some (Json.str s) ∧ strStartsB s ctx = true) ∧
      (strContainsB (pyLower host) "generativelanguage.googleapis" = true →
        ∃ sifs s rest, getEntry fs₃ "system_instruction" = some (Json.obj sifs) ∧
          getEntry sifs "parts" =
            some (Json.arr (Json.obj [("text", Json.str s)] :: rest)) ∧
          strStartsB s ctx = true) ∧
      (strContainsB (pyLower host) "cohere" = true →
        ∃ s, getEntry fs₃ "preamble" = some (Json.str s) ∧
          strStartsB s ctx = true) := by
  have hempty : ∀ data, newRequestBody host "" data = data := by
    intro data
    cases data <;> rfl
  have hclean' : countFields ctx fs₀ = 0 := hclean
  unfold inject_context at hok
  dsimp only [pyGet] at hok
  rw [if_neg hctx] at hok
  by_cases hA : (strContainsB (pyLower host) "anthropic" && hasKeyJ fs₀ "messages") = true
  · rw [if_pos hA] at hok
    cases hr1 : injectSystemField ctx fs₀ with
    | error e =>
      rw [hr1] at hok
      simp [Except.map] at hok
    | ok fs₁ =>
      rw [hr1] at hok
      dsimp only [Except.map] at hok
      obtain ⟨hcnt₁, hAprop, hframe₁⟩ :=
        injectSystemField_spec hr1 (countJ_getEntry_eq_zero hclean' "system")
      have hz_si : countJ ctx ((getEntry fs₁ "system_instruction").getD Json.null) = 0 := by
        rw [hframe₁ "system_instruction" (by decide)]
        exact countJ_getEntry_eq_zero hclean' "system_instruction"
      have hz_pre : countJ ctx ((getEntry fs₁ "preamble").getD Json.null) = 0 := by
        rw [hframe₁ "preamble" (by decide)]
        exact countJ_getEntry_eq_zero hclean' "preamble"
      obtain ⟨fs₃, hd', hcnt₃, hinj, hframe, hCprop, hDprop⟩ :=
        gemini_cohere_steps hz_si hz_pre hok
      have hK : hasKeyJ fs₀ "messages" = true := (Bool.and_eq_true _ _).mp hA |>.2
      refine ⟨hempty, ?_, ?_, fs₃, hd', ?_, ?_, hCprop, hDprop⟩
      · rw [hd', countJ_obj, hcnt₃, hcnt₁, hclean']
        have e1 : (if (strContainsB (pyLower host) "anthropic" &&
            hasKeyJ fs₀ "messages") = true then 1 else 0) = 1 := if_pos hA
        have e2 : (if (!(strContainsB (pyLower host) "anthropic" &&
            hasKeyJ fs₀ "messages") && hasKeyJ fs₀ "messages") = true
            then 1 else 0) = 0 := by
          have hb : (!(strContainsB (pyLower host) "anthropic" &&
              hasKeyJ fs₀ "messages") && hasKeyJ fs₀ "messages") = false := by
            rw [hA]
            rfl
          rw [hb]
          decide
        rw [e1, e2]
      · rw [hinj, hK]
      · intro _
        obtain ⟨s, hs, hst⟩ := hAprop
        exact ⟨s, (hframe "system" (by decide) (by decide)).trans hs, hst⟩
      · intro h
        rw [hA] at h
        simp at h
  · rw [if_neg hA] at hok
    rw [Bool.not_eq_true] at hA
    by_cases hB : hasKeyJ fs₀ "messages" = true
    · rw [if_pos hB] at hok
      cases hr1 : injectMessages ctx fs₀ with
      | error e =>
        rw [hr1] at hok
        simp [Except.map] at hok
      | ok fs₁ =>
        rw [hr1] at hok
        dsimp only [Except.map] at hok
        obtain ⟨hcnt₁, hBprop, hframe₁⟩ := injectMessages_spec hr1 hclean' hsys
        have hz_si : countJ ctx ((getEntry fs₁ "system_instruction").getD Json.null) = 0 := by
          rw [hframe₁ "system_instruction" (by decide)]
          exact countJ_getEntry_eq_zero hclean' "system_instruction"
        have hz_pre : countJ ctx ((getEntry fs₁ "preamble").getD Json.null) = 0 := by
          rw [hframe₁ "preamble" (by decide)]
          exact countJ_getEntry_eq_zero hclean' "preamble"
        obtain ⟨fs₃, hd', hcnt₃, hinj, hframe, hCprop, hDprop⟩ :=
          gemini_cohere_steps hz_si hz_pre hok
        refine ⟨hempty, ?_, ?_, fs₃, hd', ?_, ?_, hCprop, hDprop⟩
        · rw [hd', countJ_obj, hcnt₃, hcnt₁, hclean']
          have e1 : (if (strContainsB (pyLower host) "anthropic" &&
              hasKeyJ fs₀ "messages") = true then 1 else 0) = 0 := by
            rw [hA]
            decide
          have e2 : (if (!(strContainsB (pyLower host) "anthropic" &&
              hasKeyJ fs₀ "messages") && hasKeyJ fs₀ "messages") = true
              then 1 else 0) = 1 := by
            rw [hA, hB]
            decide
          rw [e1, e2]
        · rw [hinj, hB]
        · intro h
          rw [hA] at h
          simp at h
        · intro _
          obtain ⟨mfs, rest, s, h1, h2, h3, h4⟩ := hBprop
          exact ⟨mfs, rest, s,
            (hframe "messages" (by decide) (by decide)).trans h1, h2, h3, h4⟩
    · rw [if_neg hB] at hok
      rw [Bool.not_eq_true] at hB
      dsimp only at hok
      obtain ⟨fs₃, hd', hcnt₃, hinj, hframe, hCprop, hDprop⟩ :=
        gemini_cohere_steps (countJ_getEntry_eq_zero hclean' "system_instruction")
          (countJ_getEntry_eq_zero hclean' "preamble") hok
      refine ⟨hempty, ?_, ?_, fs₃, hd', ?_, ?_, hCprop, hDprop⟩
      · rw [hd', countJ_obj, hcnt₃, hclean']
        have e1 : (if (strContainsB (pyLower host) "anthropic" &&
            hasKeyJ fs₀ "messages") = true then 1 else 0) = 0 := by
          rw [hB]
          simp
        have e2 : (if (!(strContainsB (pyLower host) "anthropic" &&
            hasKeyJ fs₀ "messages") && hasKeyJ fs₀ "messages") = true
            then 1 else 0) = 0 := by
          rw [hB]
          simp
        rw [e1, e2]
      · rw [hinj, hB]
      · intro h
        rw [hA] at h
        simp at h
      · intro h
        rw [hB] at h
        simp at h

theorem c1_injection_amended_witness :
    inject_context "api.anthropic.com" "MEMCTX"
        (Json.obj [("messages", Json.arr [])]) =
      Except.ok (Json.obj [("messages", Json.arr []),
        ("system", Json.str "MEMCTX")], true) ∧
    countJ "MEMCTX" (Json.obj [("messages", Json.arr []),
        ("system", Json.str "MEMCTX")]) = 1 := by
  have h := c1_injection_amended "api.anthropic.com" "MEMCTX"
    [("messages", Json.arr [])]
    (Json.obj [("messages", Json.arr []), ("system", Json.str "MEMCTX")]) true
    (by decide) rfl rfl rfl
  exact ⟨rfl, h.2.1.trans (by decide)⟩

/-- C1 counterexample: a cohere host whose body carries a "messages" key fires
both the generic messages strategy (line 497) and the cohere preamble strategy
(line 527), so the context ends up in the forwarded body twice, not exactly
once. -/
theorem c1_counterexample :
    ∃ d, inject_context "api.cohere.ai" "MEMCTX"
        (Json.obj [("messages", Json.arr [])]) = Except.ok (d, true) ∧
      countJ "MEMCTX" d ≠ 1 := by
  refine ⟨_, rfl, by decide⟩

end Aimem
